import Mathlib

/-!
Shallow embedding of the rename pipeline of the `syncstage` repository
(files `syncstage/utils.py`, `syncstage/commands/rename.py`,
`syncstage/translate.py`).

Strings are modelled as `List Char` on the ASCII fragment: the Python
`str` methods used by the code (`lower`, `upper`, `capitalize`, `title`,
`isalnum`, `isspace`, `strip`, `zfill`) are implemented on ASCII code
points, and `unicodedata.normalize("NFKC", s)`, which is the identity on
ASCII strings, is modelled as the identity.  User-supplied
regular-expression substitutions (`--re`) are modelled as the string
functions they denote; `re.compile` of the idempotency pattern is modelled
as a function `String -> Option (List Char -> Bool)` returning `none` on
`re.error`.  A filesystem directory is modelled as the list of its entry
names; `Path.resolve` equality between entries of one directory is name
equality (the code skips symlinks before processing, so no aliasing).
All recursion is structural (loops use explicit fuel), so every
definition evaluates inside the kernel.
-/

namespace SyncStage

/-- ASCII model of Python `str.isspace` restricted to the characters of
the regex class `\s` (space, tab, newline, vertical tab, form feed,
carriage return). -/
def isSpacePy (c : Char) : Bool :=
  c.toNat == 32 || c.toNat == 9 || c.toNat == 10 || c.toNat == 11 ||
    c.toNat == 12 || c.toNat == 13

/-- ASCII digit test (Python `str.isdigit` on ASCII). -/
def isDig (c : Char) : Bool := 48 ≤ c.toNat && c.toNat ≤ 57

/-- ASCII letter test. -/
def isAlphaPy (c : Char) : Bool :=
  (65 ≤ c.toNat && c.toNat ≤ 90) || (97 ≤ c.toNat && c.toNat ≤ 122)

/-- ASCII model of Python `str.isalnum`. -/
def isAlnumPy (c : Char) : Bool := isAlphaPy c || isDig c

/-- ASCII model of Python `str.lower` on one character. -/
def pyLower (c : Char) : Char :=
  if 65 ≤ c.toNat ∧ c.toNat ≤ 90 then Char.ofNat (c.toNat + 32) else c

/-- ASCII model of Python `str.upper` on one character. -/
def pyUpper (c : Char) : Char :=
  if 97 ≤ c.toNat ∧ c.toNat ≤ 122 then Char.ofNat (c.toNat - 32) else c

/-- ASCII model of Python `str.capitalize`: first character upper-cased,
the rest lower-cased. -/
def pyCapitalize : List Char → List Char
  | [] => []
  | c :: r => pyUpper c :: r.map pyLower

/-- Python `startswith` / list prefix test on characters. -/
def isPre : List Char → List Char → Bool
  | [], _ => true
  | _ :: _, [] => false
  | a :: as, b :: bs => a == b && isPre as bs

/-- Python `pat in s` substring test (for nonempty `pat`). -/
def isSubstring (pat : List Char) : List Char → Bool
  | [] => pat.isEmpty
  | c :: rest => isPre pat (c :: rest) || isSubstring pat rest

/-- Left strip of whitespace (half of Python `str.strip`). -/
def dropSpacesL : List Char → List Char
  | [] => []
  | c :: r => if isSpacePy c then dropSpacesL r else c :: r

/-- Python `str.strip()`: whitespace removed from both ends. -/
def pyStrip (s : List Char) : List Char :=
  (dropSpacesL (dropSpacesL s).reverse).reverse

/-- Model of `SPACE_RE.sub(" ", s)` from `utils.py`: every maximal run of
whitespace becomes a single space.  The boolean flag records whether the
previous character belonged to a whitespace run. -/
def collapseAux : Bool → List Char → List Char
  | _, [] => []
  | prevSpace, c :: rest =>
    if isSpacePy c then
      if prevSpace then collapseAux true rest else ' ' :: collapseAux true rest
    else c :: collapseAux false rest

/-- Whitespace-run collapsing, `SPACE_RE.sub(" ", s)`. -/
def collapseSpaces (s : List Char) : List Char := collapseAux false s

/-- The `SAFE_CHARS` constant of `utils.py`. -/
def SAFE_CHARS : List Char := "-_.() []\x7b\x7d@~^+=,".data

/-- The `SMALL_WORDS` constant of `utils.py`. -/
def SMALL_WORDS : List (List Char) :=
  List.map String.data
    ["a", "an", "and", "as", "at", "but", "by", "for", "from", "in",
     "of", "on", "or", "the", "to", "vs", "via"]

/-- The `ACRONYMS` constant of `utils.py`. -/
def ACRONYMS : List (List Char) :=
  List.map String.data
    ["PDF", "CAD", "RF", "SDR", "STM32", "FPGA", "SAR", "GNSS", "IOT",
     "CPU", "GPU", "GPS", "USB", "I2C", "SPI", "CAN", "AI", "ML"]

/-- Allowed-character test of `sanitize_filename`: alphanumeric, in the
`SAFE_CHARS` allow-list, or whitespace. -/
def sanitizeOk (c : Char) : Bool :=
  isAlnumPy c || SAFE_CHARS.contains c || isSpacePy c

/-- The `sanitize_filename` function of `utils.py` with its default
`keep` set and `collapse_spaces=True` (the only way the rename command
calls it): drop (or underscore) disallowed characters, collapse
whitespace, strip. -/
def sanitize_filename (name : List Char) (mode : String) : List Char :=
  let cleaned :=
    if mode = "underscore" then
      name.map (fun c => if sanitizeOk c then c else '_')
    else name.filter sanitizeOk
  pyStrip (collapseSpaces cleaned)

/-- Index of the last `'.'` in a name (`str.rfind(".")`, `none` for -1). -/
def lastDotIdx : List Char → Option Nat
  | [] => none
  | c :: rest =>
    match lastDotIdx rest with
    | some i => some (i + 1)
    | none => if c = '.' then some 0 else none

/-- Number of dots in a name (`name.count(".")`). -/
def countDot (s : List Char) : Nat := (s.filter (fun c => c = '.')).length

/-- The `split_name_ext` function of `utils.py`: split at the last dot,
except that a name beginning with exactly one dot and containing no
further dot is all stem (`idx <= 0` in the source also covers the
no-dot case, where `rfind` returns -1). -/
def split_name_ext (name : List Char) : List Char × List Char :=
  if name.head? = some '.' ∧ countDot name = 1 then (name, [])
  else
    match lastDotIdx name with
    | none => (name, [])
    | some i => if i = 0 then (name, []) else (name.take i, name.drop i)

/-- Position of the `pathlib` suffix of a name: the last dot, provided it
is neither the first nor the last character (`PurePath.suffix`). -/
def pySuffixIdx (name : List Char) : Option Nat :=
  match lastDotIdx name with
  | none => none
  | some i => if 0 < i ∧ i + 1 < name.length then some i else none

/-- Model of `pathlib.PurePath.suffix` of a file name. -/
def pySuffix (name : List Char) : List Char :=
  match pySuffixIdx name with
  | none => []
  | some i => name.drop i

/-- Model of `pathlib.PurePath.stem` of a file name. -/
def pyStem (name : List Char) : List Char :=
  match pySuffixIdx name with
  | none => name
  | some i => name.take i

/-- Model of `re.split(r"(\s+|-)", text)` from `smart_title_case`:
alternating segments and separators, separators kept, with empty
segments between adjacent separators and at the ends, exactly as
`re.split` with a capturing group produces them.  The flag is `true`
while a whitespace run is being accumulated in `acc` (reversed). -/
def splitSepsAux : Bool → List Char → List Char → List (List Char)
  | false, acc, [] => [acc.reverse]
  | true, run, [] => [run.reverse, []]
  | false, acc, c :: rest =>
    if c = '-' then acc.reverse :: ['-'] :: splitSepsAux false [] rest
    else if isSpacePy c then acc.reverse :: splitSepsAux true [c] rest
    else splitSepsAux false (c :: acc) rest
  | true, run, c :: rest =>
    if c = '-' then run.reverse :: [] :: ['-'] :: splitSepsAux false [] rest
    else if isSpacePy c then splitSepsAux true (c :: run) rest
    else run.reverse :: splitSepsAux false [c] rest

/-- Split preserving separators, `re.split(r"(\s+|-)", text)`. -/
def splitSeps (text : List Char) : List (List Char) := splitSepsAux false [] text

/-- The word test of `smart_title_case`:
`t and not t.isspace() and t != "-"`. -/
def tokIsWord (t : List Char) : Bool :=
  !t.isEmpty && !(t.all isSpacePy) && !(t == ['-'])

/-- Pairing of list elements with their indices, starting at `i`
(Python `enumerate`). -/
def withIdx (i : Nat) : List (List Char) → List (Nat × List Char)
  | [] => []
  | t :: r => (i, t) :: withIdx (i + 1) r

/-- Word characters of the regex class `\w` (ASCII). -/
def isWordChar (c : Char) : Bool := isAlphaPy c || isDig c || c == '_'

/-- The inner `norm(tok, pos)` function of `smart_title_case`:
separators pass through; a token whose word characters upper-case to a
known acronym becomes that acronym; a small word strictly between the
first and last word tokens is lower-cased; anything else is
lower-cased then capitalized.  (The first branch tests
`tok = []` together with `tok.all isSpacePy`, which is equivalent to
Python's `not tok or tok.isspace()` since both return `tok` itself.) -/
def normTok (last : Int) (tok : List Char) (pos : Nat) : List Char :=
  if tok = [] ∨ tok.all isSpacePy = true ∨ tok = ['-'] then tok
  else
    let bare := (tok.filter isWordChar).map pyUpper
    if bare ∈ ACRONYMS then bare
    else
      let low := tok.map pyLower
      if 0 < pos ∧ (pos : Int) < last ∧ low ∈ SMALL_WORDS then low
      else pyCapitalize low

/-- Concatenation of a list of strings (`"".join(...)`). -/
def concatAll : List (List Char) → List Char
  | [] => []
  | x :: r => x ++ concatAll r

/-- The `smart_title_case` function of `utils.py`. -/
def smart_title_case (text : List Char) : List Char :=
  let parts := splitSeps text
  let wordIdx := ((withIdx 0 parts).filter (fun it => tokIsWord it.2)).map (·.1)
  let last : Int :=
    match wordIdx.getLast? with
    | some i => (i : Int)
    | none => -1
  concatAll ((withIdx 0 parts).map (fun it => normTok last it.2 it.1))

/-- ASCII model of Python `str.title`: a letter starts upper-cased when
the previous character is not a letter, otherwise lower-cased. -/
def pyTitleAux : Bool → List Char → List Char
  | _, [] => []
  | prevAlpha, c :: rest =>
    if isAlphaPy c then
      (if prevAlpha then pyLower c else pyUpper c) :: pyTitleAux true rest
    else c :: pyTitleAux false rest

/-- Python `str.title`. -/
def pyTitle (s : List Char) : List Char := pyTitleAux false s

/-- Model of `unicodedata.normalize("NFKC", s)`.  NFKC is the identity
on ASCII strings, the fragment this embedding covers. -/
def nfkc (s : List Char) : List Char := s

/-- The symbol set stripped by `normalize_stem` when `drop_symbols`
holds: the regex class of double quote, apostrophe, question and
exclamation marks, backtick, interpunct, bullet, caret, slashes, pipe,
star and angle brackets. -/
def isDropSymbol (c : Char) : Bool :=
  c == '"' || c == Char.ofNat 39 || c == '?' || c == '!' ||
    c == Char.ofNat 96 || c == '·' || c == '•' || c == '^' ||
    c == '/' || c == '\\' || c == '|' || c == '*' || c == '<' || c == '>'

/-- The `normalize_stem` function of `utils.py`: NFKC, optional
underscore and dash conversion, optional symbol stripping, whitespace
collapse and strip, then the casing policy (any unrecognized
`case_mode` falls through to smart casing, as in the source's
`else` branch). -/
def normalize_stem (stem : List Char) (case_mode : String)
    (drop_symbols convert_underscores convert_dashes : Bool) : List Char :=
  let s := nfkc stem
  let s := if convert_underscores then s.map (fun c => if c = '_' then ' ' else c) else s
  let s := if convert_dashes then s.map (fun c => if c = '-' then ' ' else c) else s
  let s := if drop_symbols then s.filter (fun c => !isDropSymbol c) else s
  let s := pyStrip (collapseSpaces s)
  if case_mode = "keep" then s
  else if case_mode = "lower" then s.map pyLower
  else if case_mode = "upper" then s.map pyUpper
  else if case_mode = "title" then pyTitle s
  else smart_title_case s

/-- Timestamp record carrying the fields of a Python `datetime` that
the used `strftime` directives read. -/
structure DateTime where
  year : Nat
  month : Nat
  day : Nat
  hour : Nat
  minute : Nat
  second : Nat
deriving DecidableEq

/-- Decimal digits of a natural number (`str(n)`), via fuel-bounded
division; the fuel `n + 1` always suffices. -/
def natToDigitsAux : Nat → Nat → List Char → List Char
  | 0, _, acc => acc
  | fuel + 1, n, acc =>
    if n = 0 then acc
    else natToDigitsAux fuel (n / 10) (Char.ofNat (48 + n % 10) :: acc)

/-- Decimal representation of a natural number, `str(n)`. -/
def natToDigits (n : Nat) : List Char :=
  if n = 0 then ['0'] else natToDigitsAux (n + 1) n []

/-- Python `str.zfill(w)` for an unsigned numeral: left-pad with zeros
to width `w`. -/
def zfill (w : Nat) (s : List Char) : List Char :=
  if w ≤ s.length then s else List.replicate (w - s.length) '0' ++ s

/-- ASCII model of `datetime.strftime` for the directives `%Y %m %d
%H %M %S` and the escape `%%`; an unrecognized directive is kept
literally.  Structural on the format string. -/
def strftime (d : DateTime) : List Char → List Char
  | [] => []
  | '%' :: [] => ['%']
  | '%' :: c :: rest =>
    (if c = 'Y' then natToDigits d.year
     else if c = 'm' then zfill 2 (natToDigits d.month)
     else if c = 'd' then zfill 2 (natToDigits d.day)
     else if c = 'H' then zfill 2 (natToDigits d.hour)
     else if c = 'M' then zfill 2 (natToDigits d.minute)
     else if c = 'S' then zfill 2 (natToDigits d.second)
     else if c = '%' then ['%']
     else ['%', c]) ++ strftime d rest
  | c :: rest => c :: strftime d rest

/-- The default date format of `_format_with_dates` when a token has no
explicit format. -/
def defaultDateFmt : List Char := "%Y-%m-%d".data

/-- Literal token strings of the template language. -/
def stemTok : List Char := "\x7bstem\x7d".data

/-- The `{ext}` token. -/
def extTok : List Char := "\x7bext\x7d".data

/-- The `{parent}` token. -/
def parentTok : List Char := "\x7bparent\x7d".data

/-- The `{counter}` token. -/
def counterTok : List Char := "\x7bcounter\x7d".data

/-- Match of the date-token body after `"{created"` or `"{modified"`:
either an immediate `}` (default format) or `:` followed by a format
group `%[^}]+` and the closing `}`, exactly the regex
`\{(created|modified)(?::(%[^}]+))?\}` of `_format_with_dates`.
Returns the rendered text and the remainder of the template. -/
def matchTokBody (base : DateTime) (rest : List Char) :
    Option (List Char × List Char) :=
  match rest with
  | '\x7d' :: rem => some (strftime base defaultDateFmt, rem)
  | ':' :: '%' :: more =>
    let body := more.takeWhile (fun c => !(c == '\x7d'))
    if body ≠ [] ∧ (more.drop body.length).head? = some '\x7d' then
      some (strftime base ('%' :: body), more.drop (body.length + 1))
    else none
  | _ => none

/-- Attempted date-token match at the head of the template. -/
def tryDateTok (created modified : DateTime) (s : List Char) :
    Option (List Char × List Char) :=
  if isPre ("\x7bcreated").data s then matchTokBody created (s.drop 8)
  else if isPre ("\x7bmodified").data s then matchTokBody modified (s.drop 9)
  else none

/-- Left-to-right non-overlapping substitution of the date tokens, the
`re.sub` call of `_format_with_dates`.  Fuel-bounded; every step
consumes at least one character, so fuel equal to the length of the
scanned text suffices. -/
def subDateAux (created modified : DateTime) : Nat → List Char → List Char
  | _, [] => []
  | 0, s => s
  | fuel + 1, c :: rest =>
    match tryDateTok created modified (c :: rest) with
    | some (out, rem) => out ++ subDateAux created modified fuel rem
    | none => c :: subDateAux created modified fuel rest

/-- Date-token substitution over a whole template. -/
def subDateTokens (created modified : DateTime) (s : List Char) : List Char :=
  subDateAux created modified s.length s

/-- Left-to-right non-overlapping replacement of a literal pattern
(Python `str.replace` for a nonempty pattern), fuel-bounded: each step
consumes at least one character. -/
def replaceAllAux (pat repl : List Char) : Nat → List Char → List Char
  | _, [] => []
  | 0, s => s
  | fuel + 1, c :: rest =>
    if pat ≠ [] ∧ isPre pat (c :: rest) = true then
      repl ++ replaceAllAux pat repl fuel (rest.drop (pat.length - 1))
    else c :: replaceAllAux pat repl fuel rest

/-- Python `s.replace(pat, repl)` for a nonempty `pat`. -/
def replaceAll (pat repl s : List Char) : List Char :=
  replaceAllAux pat repl s.length s

/-- The `_format_with_dates` function of `rename.py`: substitute the
date tokens, then `{stem}`, `{ext}` and `{parent}` from the candidate
path, then `{counter}` (with `"1"` when no counter is supplied). -/
def format_with_dates (name parent : List Char) (template : List Char)
    (created modified : DateTime) (counter : Option Nat) : List Char :=
  let ext := pySuffix name
  let stem := pyStem name
  let s := subDateTokens created modified template
  let s := replaceAll stemTok stem s
  let s := replaceAll extTok ext s
  let s := replaceAll parentTok parent s
  if isSubstring counterTok s then
    replaceAll counterTok
      (match counter with
       | some c => natToDigits c
       | none => ['1']) s
  else s

/-- The `_apply_substitutions` helper of `rename.py`.  Literal pairs are
applied by `str.replace` in order; each regex pair is embedded as the
string function denoted by its `re.sub` call, applied in order. -/
def apply_substitutions (name : List Char)
    (subs : List (List Char × List Char))
    (resubs : List (List Char → List Char)) : List Char :=
  let s := subs.foldl (fun acc p => replaceAll p.1 p.2 acc) name
  resubs.foldl (fun acc f => f acc) s

/-- Per-run options of the rename command, mirroring the locals of
`rename.run` that `_process_items` receives. -/
structure RenameOpts where
  template : List Char
  keep_ext : Bool
  case_mode : String
  ext_case : String
  keep_symbols : Bool
  keep_underscores : Bool
  convert_dashes : Bool
  no_sanitize : Bool
  sanitize_mode : String
  subs : List (List Char × List Char)
  resubs : List (List Char → List Char)
  skip_if_already : Bool
  pad : Nat

/-- Options with the defaults of `rename.run` (lines 102-126): smart
case, extension case kept, symbols dropped, underscores converted,
sanitize in drop mode, idempotency skip on, pad 2, no substitutions. -/
def mkDefaultOpts (template : List Char) : RenameOpts :=
  ⟨template, false, "smart", "keep", false, false, false, false, "drop",
    [], [], true, 2⟩

/-- Lines 342-344 of `rename.py`: render the template, then append the
original extension when the template has no `{ext}` token and
`keep_ext` is NOT set (`if not keep_ext and "{ext}" not in template`). -/
def renderedBase (opts : RenameOpts) (name parent : List Char)
    (created modified : DateTime) : List Char :=
  let base := format_with_dates name parent opts.template created modified none
  if ¬opts.keep_ext ∧ isSubstring extTok opts.template = false then
    base ++ pySuffix name
  else base

/-- Lines 341-384 of `_process_items`: the pure per-candidate name
computation — render, split, optional translation of the stem (a
translator is `some f`, and `f s = none` models a raised exception,
after which the stem is kept, line 359), normalization, extension
casing, substitutions, sanitization, and the empty/dot rejection
(`none` means the candidate is skipped). -/
def computeNewName (opts : RenameOpts)
    (translate : Option (List Char → Option (List Char)))
    (name parent : List Char) (created modified : DateTime) :
    Option (List Char) :=
  let base := renderedBase opts name parent created modified
  let pr := split_name_ext base
  let stem0 :=
    match translate with
    | some f =>
      match f pr.1 with
      | some t => t
      | none => pr.1
    | none => pr.1
  let stem1 := normalize_stem stem0 opts.case_mode (!opts.keep_symbols)
    (!opts.keep_underscores) opts.convert_dashes
  let nn :=
    if pr.2 ≠ [] ∧ opts.ext_case ≠ "keep" then
      stem1 ++ (if opts.ext_case = "lower" then pr.2.map pyLower else pr.2.map pyUpper)
    else stem1 ++ pr.2
  let nn := apply_substitutions nn opts.subs opts.resubs
  let nn := if ¬opts.no_sanitize then sanitize_filename nn opts.sanitize_mode else nn
  if nn = [] ∨ nn = ['.'] ∨ nn = ['.', '.'] then none else some nn

/-- Separator class of the heuristic idempotency regex
`^([^\s_\-]+)[\s_\-]+`. -/
def isSepChar (c : Char) : Bool := isSpacePy c || c == '_' || c == '-'

/-- Leading run of non-separator characters of a name (the capture
group of the heuristic regex). -/
def leadTok : List Char → List Char
  | [] => []
  | c :: r => if isSepChar c then [] else c :: leadTok r

/-- Remainder of a name from its first separator character on. -/
def afterTok : List Char → List Char
  | [] => []
  | c :: r => if isSepChar c then c :: r else afterTok r

/-- Rule 3 of the idempotency guard (lines 395-404): the heuristic
matches when the computed name starts with a nonempty token followed
by a space, underscore or dash, and the current name starts with that
token followed by one of the three separators. -/
def heuristicSkip (cur new : List Char) : Bool :=
  let tok := leadTok new
  if tok ≠ [] ∧ afterTok new ≠ [] then
    isPre (tok ++ [' ']) cur || isPre (tok ++ ['_']) cur || isPre (tok ++ ['-']) cur
  else false

/-- Outcome of the idempotency guard: which rule (if any) caused the
candidate to be skipped. -/
inductive GuardDecision where
  | proceed
  | skipRule1
  | skipRule2
  | skipRule3
deriving DecidableEq

/-- Lines 386-404 of `_process_items`: the guard checks, in order and
short-circuiting, (1) exact equality of the computed and current
names, (2) the compiled explicit pattern against the current name, and
(3) — only when no compiled pattern exists — the heuristic token
test.  The pattern is `some m` with `m` the match-at-start semantics
of the compiled regex. -/
def idemGuard (skip : Bool) (pat : Option (List Char → Bool))
    (cur new : List Char) : GuardDecision :=
  if ¬skip then .proceed
  else if cur = new then .skipRule1
  else
    match pat with
    | some m => if m cur then .skipRule2 else .proceed
    | none => if heuristicSkip cur new then .skipRule3 else .proceed

/-- The built-in default pattern of lines 169-171 (an 8-digit or ISO
date followed by a separator). -/
def builtinDatePattern : String :=
  "^(?:\\d\x7b8\x7d|\\d\x7b4\x7d-\\d\x7b2\x7d-\\d\x7b2\x7d)[ _-]"

/-- Value of the `idempotent_prefix` argument: absent, the boolean
`True` (use the built-in pattern), or a pattern string. -/
inductive IppArg where
  | absent
  | boolTrue
  | patStr (s : String)

/-- Lines 166-176 of `rename.run`: the compiled idempotency pattern.
`compile` models `re.compile`, returning `none` exactly when the
pattern raises `re.error`; a failed compile leaves the pattern unset
rather than aborting. -/
def prepareGuardPattern (skip_if_already : Bool) (arg : IppArg)
    (compile : String → Option (List Char → Bool)) :
    Option (List Char → Bool) :=
  if ¬skip_if_already then none
  else
    match arg with
    | .absent => none
    | .boolTrue => compile builtinDatePattern
    | .patStr s => if s ≠ "" then compile s else none

/-- Lines 410-435: the body of the collision loop producing the next
candidate target for a given counter.  With `{counter}` in the
template the whole pipeline is re-rendered (template render with the
zero-padded counter substituted, split, normalize, substitutions,
sanitize — the source repeats neither translation nor extension
casing here); otherwise a space plus the zero-padded counter is
inserted before the `pathlib` suffix of the already computed name. -/
def collisionStep (opts : RenameOpts) (name parent : List Char)
    (created modified : DateTime) (newName : List Char) (counter : Nat) :
    List Char :=
  if isSubstring counterTok opts.template then
    let tmp := format_with_dates name parent
      (replaceAll counterTok (zfill opts.pad (natToDigits counter)) opts.template)
      created modified none
    let tmp :=
      if ¬opts.keep_ext ∧ isSubstring extTok opts.template = false then
        tmp ++ pySuffix name
      else tmp
    let pr := split_name_ext tmp
    let sp := normalize_stem pr.1 opts.case_mode (!opts.keep_symbols)
      (!opts.keep_underscores) opts.convert_dashes
    let tf := apply_substitutions (sp ++ pr.2) opts.subs opts.resubs
    if ¬opts.no_sanitize then sanitize_filename tf opts.sanitize_mode else tf
  else
    pyStem newName ++ ' ' :: zfill opts.pad (natToDigits counter) ++ pySuffix newName

/-- The `while target.exists() and target.resolve() != p.resolve()`
loop, fuel-bounded.  `taken t` is the loop condition (the target
exists and is a distinct entry); `step` produces the next target for
the current counter.  `none` means the fuel ran out with the condition
still true — the source has NO exit of its own for that situation. -/
def resolveTargetAux (step : Nat → List Char) (taken : List Char → Bool) :
    Nat → Nat → List Char → Option (List Char)
  | 0, _, target => if taken target then none else some target
  | fuel + 1, counter, target =>
    if taken target then resolveTargetAux step taken fuel (counter + 1) (step counter)
    else some target

/-- Loop condition of the collision resolver in a directory `fs`
containing the candidate `name`: the target exists and names a
different entry. -/
def targetTaken (fs : List (List Char)) (name : List Char)
    (t : List Char) : Bool :=
  decide (t ∈ fs ∧ t ≠ name)

/-- Lines 321-448 of `_process_items` for one candidate of a directory
`fs` (ignore patterns, symlinks and `stat` failures are orthogonal to
the claims and outside the model): compute the name, run the
idempotency guard, resolve collisions, suppress self-renames.  The
result is the planned-and-performed new name, `none` when the
candidate is skipped (or, artificially, when the collision fuel runs
out). -/
def processCandidate (fuel : Nat) (opts : RenameOpts)
    (pat : Option (List Char → Bool))
    (translate : Option (List Char → Option (List Char)))
    (fs : List (List Char)) (name parent : List Char)
    (created modified : DateTime) : Option (List Char) :=
  match computeNewName opts translate name parent created modified with
  | none => none
  | some newName =>
    if idemGuard opts.skip_if_already pat name newName ≠ GuardDecision.proceed then
      none
    else
      match resolveTargetAux
          (collisionStep opts name parent created modified newName)
          (targetTaken fs name) fuel 2 newName with
      | none => none
      | some target => if name = target then none else some target

/-- Lines 147-151 of `rename.run` (plan replay): the minimal collision
loop, appending a space and the zero-padded counter to the `pathlib`
stem of the CURRENT target each round. -/
def planReplayAux (pad : Nat) (taken : List Char → Bool) :
    Nat → Nat → List Char → Option (List Char)
  | 0, _, target => if taken target then none else some target
  | fuel + 1, counter, target =>
    if taken target then
      planReplayAux pad taken fuel (counter + 1)
        (pyStem target ++ ' ' :: zfill pad (natToDigits counter) ++ pySuffix target)
    else some target

/-- Lines 142-159 of `rename.run`: replay of one plan entry whose
`old_path` still exists in the directory `fs`.  The literal `new_name`
is the starting target; after collision resolution a rename to an
unchanged name is suppressed.  The result is the performed target
name, `none` when nothing is renamed. -/
def planReplayEntry (fs : List (List Char)) (pad : Nat) (fuel : Nat)
    (oldName newName : List Char) : Option (List Char) :=
  match planReplayAux pad (targetTaken fs oldName) fuel 2 newName with
  | none => none
  | some target => if oldName = target then none else some target

/-- The default template of `rename.run`
(`{created:%Y-%m-%d} {stem}{ext}`, line 102). -/
def defaultTemplate : List Char :=
  "\x7bcreated:%Y-%m-%d\x7d \x7bstem\x7d\x7bext\x7d".data

/-- String function denoted by `re.sub(r"[0-9]+", "", s)`: deletion of
every decimal digit. -/
def removeDigits (s : List Char) : List Char := s.filter (fun c => !isDig c)

/-- Options exhibiting the unbounded collision loop: template
`{counter}b`, defaults otherwise, with the digit-deleting regex
substitution configured. -/
def counterCollapseOpts : RenameOpts :=
  ⟨counterTok ++ ['b'], false, "smart", "keep", false, false, false,
    false, "drop", [], [removeDigits], true, 2⟩

/-- Identity translator (a translation call that succeeds and returns
its input unchanged). -/
def idTranslator : Option (List Char → Option (List Char)) :=
  some (fun s => some s)

/-! Helper lemmas about the string primitives. -/

theorem lastDotIdx_eq_none (s : List Char) (h : '.' ∉ s) :
    lastDotIdx s = none := by
  induction s with
  | nil => rfl
  | cons c r ih =>
    have hc : c ≠ '.' := fun hc => h (hc ▸ List.mem_cons_self c r)
    have hr : '.' ∉ r := fun hr => h (List.mem_cons_of_mem c hr)
    simp [lastDotIdx, ih hr, hc]

theorem lastDotIdx_append_last (a b : List Char) (h : '.' ∉ b) :
    lastDotIdx (a ++ '.' :: b) = some a.length := by
  induction a with
  | nil => simp [lastDotIdx, lastDotIdx_eq_none b h]
  | cons c a ih => simp [lastDotIdx, ih]

theorem countDot_append (a b : List Char) :
    countDot (a ++ b) = countDot a + countDot b := by
  simp [countDot, List.filter_append]

theorem countDot_pos_of_mem {a : List Char} (h : '.' ∈ a) :
    0 < countDot a := by
  have hm : '.' ∈ a.filter (fun c => c = '.') := by
    simp [List.mem_filter, h]
  have := List.length_pos.mpr (List.ne_nil_of_mem hm)
  simpa [countDot] using this

theorem countDot_eq_zero {b : List Char} (hb : '.' ∉ b) : countDot b = 0 := by
  have hfil : b.filter (fun c => c = '.') = [] := by
    rw [List.filter_eq_nil_iff]
    intro x hx
    simp only [decide_eq_true_eq]
    intro hxe
    exact hb (hxe ▸ hx)
  simp [countDot, hfil]

theorem take_len_append (a b : List Char) : (a ++ b).take a.length = a := by
  induction a with
  | nil => rfl
  | cons c a ih => simp [ih]

theorem drop_len_append (a b : List Char) : (a ++ b).drop a.length = b := by
  induction a with
  | nil => rfl
  | cons c a ih => simp [ih]

/-- C5 main content: the split at the last dot for a name of shape
`a ++ '.' :: b` with no further dot in `b`. -/
theorem split_last_dot (a b : List Char) (hb : '.' ∉ b) (ha : a ≠ []) :
    split_name_ext (a ++ '.' :: b) = (a, '.' :: b) := by
  have hidx := lastDotIdx_append_last a b hb
  have hne : ¬((a ++ '.' :: b).head? = some '.' ∧ countDot (a ++ '.' :: b) = 1) := by
    rintro ⟨h1, h2⟩
    rcases a with _ | ⟨c, a'⟩
    · exact ha rfl
    · simp at h1
      subst h1
      have : 0 < countDot ('.' :: a') := countDot_pos_of_mem (List.mem_cons_self _ _)
      rw [countDot_append] at h2
      simp [countDot] at this h2
      omega
  have hlen : a.length ≠ 0 := (List.length_pos.mpr ha).ne'
  rw [split_name_ext, if_neg hne, hidx]
  simp [hlen, take_len_append, drop_len_append]

theorem split_no_dot (name : List Char) (h : '.' ∉ name) :
    split_name_ext name = (name, []) := by
  rw [split_name_ext]
  by_cases hc : name.head? = some '.' ∧ countDot name = 1
  · rw [if_pos hc]
  · rw [if_neg hc, lastDotIdx_eq_none name h]

/-- C5: for every name, `split_name_ext` splits at the last dot
(the extension keeps the dot); a name beginning with exactly one dot
and containing no further dot is all stem, and a dotless name is all
stem; `"archive.tar.gz"` and `".bashrc"` split as documented. -/
theorem C5_stem_ext_split :
    (∀ a b : List Char, '.' ∉ b → a ≠ [] →
        split_name_ext (a ++ '.' :: b) = (a, '.' :: b)) ∧
    (∀ b : List Char, '.' ∉ b → split_name_ext ('.' :: b) = ('.' :: b, [])) ∧
    (∀ name : List Char, '.' ∉ name → split_name_ext name = (name, [])) ∧
    split_name_ext ("archive.tar.gz").data = (("archive.tar").data, (".gz").data) ∧
    split_name_ext (".bashrc").data = ((".bashrc").data, []) := by
  refine ⟨split_last_dot, ?_, split_no_dot, by decide, by decide⟩
  intro b hb
  have h1 : ('.' :: b).head? = some '.' := rfl
  have h2 : countDot ('.' :: b) = 1 := by
    have h0 := countDot_eq_zero hb
    have : countDot ('.' :: b) = countDot b + 1 := by
      simp [countDot, List.filter_cons]
    omega
  rw [split_name_ext, if_pos ⟨h1, h2⟩]

/-- Witness for C5 at concrete inputs. -/
theorem C5_stem_ext_split_witness :
    split_name_ext (("archive.tar").data ++ '.' :: ("gz").data)
      = (("archive.tar").data, '.' :: ("gz").data) ∧
    split_name_ext ('.' :: ("bashrc").data) = ('.' :: ("bashrc").data, []) ∧
    split_name_ext ("README").data = (("README").data, []) :=
  ⟨C5_stem_ext_split.1 ("archive.tar").data ("gz").data (by decide) (by decide),
   C5_stem_ext_split.2.1 ("bashrc").data (by decide),
   C5_stem_ext_split.2.2.1 ("README").data (by decide)⟩

theorem concatAll_splitSepsAux (s : List Char) :
    ∀ (b : Bool) (acc : List Char),
      concatAll (splitSepsAux b acc s) = acc.reverse ++ s := by
  induction s with
  | nil =>
    intro b acc
    cases b <;> simp [splitSepsAux, concatAll]
  | cons c rest ih =>
    intro b acc
    cases b with
    | false =>
      by_cases h1 : c = '-'
      · subst h1
        simp [splitSepsAux, concatAll, ih]
      · by_cases h2 : isSpacePy c
        · simp [splitSepsAux, h1, h2, concatAll, ih]
        · simp [splitSepsAux, h1, h2, concatAll, ih]
    | true =>
      by_cases h1 : c = '-'
      · subst h1
        simp [splitSepsAux, concatAll, ih]
      · by_cases h2 : isSpacePy c
        · simp [splitSepsAux, h1, h2, concatAll, ih]
        · simp [splitSepsAux, h1, h2, concatAll, ih]

/-- C6: smart casing.  The concrete normalization of the spec holds;
the split on whitespace and dash is lossless (separators are kept, and
the token mapper fixes them); a token whose word characters upper-case
to a listed acronym becomes that upper-case form at every position; a
listed small word strictly inside the token list is lower-cased; any
other word is lower-cased and capitalized. -/
theorem C6_smart_casing :
    normalize_stem ("my_file \"draft\"?").data "smart" true true false
        = ("My File Draft").data ∧
    (∀ s : List Char, concatAll (splitSeps s) = s) ∧
    (∀ (t : List Char) (pos : Nat) (last : Int),
        t.all isSpacePy = true ∨ t = ['-'] → normTok last t pos = t) ∧
    (∀ (t : List Char) (pos : Nat) (last : Int),
        t ≠ [] → t.all isSpacePy = false → t ≠ ['-'] →
        (t.filter isWordChar).map pyUpper ∈ ACRONYMS →
        normTok last t pos = (t.filter isWordChar).map pyUpper) ∧
    (∀ (t : List Char) (pos : Nat) (last : Int),
        t ≠ [] → t.all isSpacePy = false → t ≠ ['-'] →
        (t.filter isWordChar).map pyUpper ∉ ACRONYMS →
        0 < pos → (pos : Int) < last → t.map pyLower ∈ SMALL_WORDS →
        normTok last t pos = t.map pyLower) ∧
    (∀ (t : List Char) (pos : Nat) (last : Int),
        t ≠ [] → t.all isSpacePy = false → t ≠ ['-'] →
        (t.filter isWordChar).map pyUpper ∉ ACRONYMS →
        ¬(0 < pos ∧ (pos : Int) < last ∧ t.map pyLower ∈ SMALL_WORDS) →
        normTok last t pos = pyCapitalize (t.map pyLower)) := by
  refine ⟨by decide, ?_, ?_, ?_, ?_, ?_⟩
  · intro s
    exact concatAll_splitSepsAux s false []
  · intro t pos last h
    rcases h with h | h
    · rw [normTok, if_pos (Or.inr (Or.inl h))]
    · rw [normTok, if_pos (Or.inr (Or.inr h))]
  · intro t pos last h1 h2 h3 hacr
    rw [normTok, if_neg (by simp [h1, h2, h3]), if_pos hacr]
  · intro t pos last h1 h2 h3 hacr hp hl hsw
    rw [normTok, if_neg (by simp [h1, h2, h3]), if_neg hacr,
      if_pos ⟨hp, hl, hsw⟩]
  · intro t pos last h1 h2 h3 hacr hcond
    rw [normTok, if_neg (by simp [h1, h2, h3]), if_neg hacr, if_neg hcond]

/-- Witness for C6 at concrete tokens and stems. -/
theorem C6_smart_casing_witness :
    normTok 4 ([' ']) 1 = [' '] ∧
    normTok 4 (("pdf").data) 2 = ("PDF").data ∧
    normTok 4 (("the").data) 2 = ("the").data ∧
    normTok 4 (("draft").data) 0 = ("Draft").data :=
  ⟨C6_smart_casing.2.2.1 [' '] 1 4 (by decide),
   C6_smart_casing.2.2.2.1 ("pdf").data 2 4 (by decide) (by decide)
     (by decide) (by decide),
   C6_smart_casing.2.2.2.2.1 ("the").data 2 4 (by decide) (by decide)
     (by decide) (by decide) (by decide) (by decide) (by decide),
   C6_smart_casing.2.2.2.2.2 ("draft").data 0 4 (by decide) (by decide)
     (by decide) (by decide) (by decide)⟩

/-- C2 counterexample: with template `"x"` (which has no `{ext}` token)
and the keep-extension option SET, the code appends nothing — the
rendered base for `a.txt` is `"x"`, not `"x" ++ ".txt"` as the claim
asserts; with the option unset the extension IS appended. -/
theorem C2_keep_ext_counterexample :
    isSubstring extTok ("x").data = false ∧
    renderedBase
        ⟨("x").data, true, "smart", "keep", false, false, false, false,
          "drop", [], [], true, 2⟩
        ("a.txt").data ("d").data ⟨2024, 3, 5, 0, 0, 0⟩ ⟨2024, 3, 5, 0, 0, 0⟩
      = ("x").data ∧
    ("x").data ≠ ("x").data ++ pySuffix ("a.txt").data ∧
    renderedBase (mkDefaultOpts ("x").data) ("a.txt").data ("d").data
        ⟨2024, 3, 5, 0, 0, 0⟩ ⟨2024, 3, 5, 0, 0, 0⟩
      = ("x").data ++ pySuffix ("a.txt").data := by
  refine ⟨by decide, by decide, by decide, by decide⟩

/-- C2 amended: if the template contains no `{ext}` token and the
keep-extension option is NOT set, the original extension is appended
verbatim to the rendered name; if the option IS set, no extension is
appended (`rename.py` lines 343-344, matching the `--keep-ext` help
text "Do not auto-append original extension"). -/
theorem C2_extension_append :
    ∀ (opts : RenameOpts) (name parent : List Char) (c m : DateTime),
      (opts.keep_ext = false → isSubstring extTok opts.template = false →
        renderedBase opts name parent c m
          = format_with_dates name parent opts.template c m none ++ pySuffix name) ∧
      (opts.keep_ext = true →
        renderedBase opts name parent c m
          = format_with_dates name parent opts.template c m none) := by
  intro opts name parent c m
  constructor
  · intro h1 h2
    simp only [renderedBase]
    rw [if_pos ⟨by simp [h1], h2⟩]
  · intro h1
    simp only [renderedBase]
    rw [if_neg (by simp [h1])]

/-- Witness for C2 at a concrete template and name. -/
theorem C2_extension_append_witness :
    renderedBase (mkDefaultOpts ("x").data) ("a.txt").data ("d").data
        ⟨2024, 3, 5, 0, 0, 0⟩ ⟨2024, 3, 5, 0, 0, 0⟩
      = format_with_dates ("a.txt").data ("d").data ("x").data
          ⟨2024, 3, 5, 0, 0, 0⟩ ⟨2024, 3, 5, 0, 0, 0⟩ none
        ++ pySuffix ("a.txt").data ∧
    renderedBase
        ⟨("x").data, true, "smart", "keep", false, false, false, false,
          "drop", [], [], true, 2⟩
        ("a.txt").data ("d").data ⟨2024, 3, 5, 0, 0, 0⟩ ⟨2024, 3, 5, 0, 0, 0⟩
      = format_with_dates ("a.txt").data ("d").data ("x").data
          ⟨2024, 3, 5, 0, 0, 0⟩ ⟨2024, 3, 5, 0, 0, 0⟩ none :=
  ⟨(C2_extension_append (mkDefaultOpts ("x").data) ("a.txt").data ("d").data
      ⟨2024, 3, 5, 0, 0, 0⟩ ⟨2024, 3, 5, 0, 0, 0⟩).1 (by decide) (by decide),
   (C2_extension_append
      ⟨("x").data, true, "smart", "keep", false, false, false, false,
        "drop", [], [], true, 2⟩
      ("a.txt").data ("d").data ⟨2024, 3, 5, 0, 0, 0⟩
      ⟨2024, 3, 5, 0, 0, 0⟩).2 (by decide)⟩

/-- C9: when the translation call raises (the translator returns
`none` on the candidate's stem), the pipeline continues with the
untranslated stem, so the final name equals the one computed with an
identity translation; a disabled or unavailable provider (`none`)
behaves the same way. -/
theorem C9_translation_fallback :
    ∀ (opts : RenameOpts) (name parent : List Char) (c m : DateTime)
      (f : List Char → Option (List Char)),
      f (split_name_ext (renderedBase opts name parent c m)).1 = none →
      computeNewName opts (some f) name parent c m
          = computeNewName opts idTranslator name parent c m ∧
      computeNewName opts none name parent c m
          = computeNewName opts idTranslator name parent c m := by
  intro opts name parent c m f hf
  constructor <;> simp only [computeNewName, idTranslator, hf]

/-- Witness for C9: an always-raising translator on a concrete file. -/
theorem C9_translation_fallback_witness :
    computeNewName (mkDefaultOpts ("x\x7bstem\x7d").data)
        (some (fun _ => none)) ("a.txt").data ("d").data
        ⟨2024, 3, 5, 0, 0, 0⟩ ⟨2024, 3, 5, 0, 0, 0⟩
      = computeNewName (mkDefaultOpts ("x\x7bstem\x7d").data) idTranslator
          ("a.txt").data ("d").data ⟨2024, 3, 5, 0, 0, 0⟩ ⟨2024, 3, 5, 0, 0, 0⟩ :=
  (C9_translation_fallback (mkDefaultOpts ("x\x7bstem\x7d").data)
    ("a.txt").data ("d").data ⟨2024, 3, 5, 0, 0, 0⟩ ⟨2024, 3, 5, 0, 0, 0⟩
    (fun _ => none) rfl).1

/-- C4: the renderer and the whole per-candidate computation are pure
functions — two invocations with equal template, timestamps, options,
translation result, candidate and directory listing yield equal
outputs, hence the same plan entry. -/
theorem C4_determinism :
    (∀ (name₁ parent₁ tpl₁ name₂ parent₂ tpl₂ : List Char)
        (c₁ m₁ c₂ m₂ : DateTime) (k₁ k₂ : Option Nat),
      name₁ = name₂ → parent₁ = parent₂ → tpl₁ = tpl₂ → c₁ = c₂ → m₁ = m₂ →
      k₁ = k₂ →
      format_with_dates name₁ parent₁ tpl₁ c₁ m₁ k₁
        = format_with_dates name₂ parent₂ tpl₂ c₂ m₂ k₂) ∧
    (∀ (fuel₁ fuel₂ : Nat) (o₁ o₂ : RenameOpts)
        (p₁ p₂ : Option (List Char → Bool))
        (tr₁ tr₂ : Option (List Char → Option (List Char)))
        (fs₁ fs₂ : List (List Char)) (n₁ pa₁ n₂ pa₂ : List Char)
        (c₁ m₁ c₂ m₂ : DateTime),
      fuel₁ = fuel₂ → o₁ = o₂ → p₁ = p₂ → tr₁ = tr₂ → fs₁ = fs₂ → n₁ = n₂ →
      pa₁ = pa₂ → c₁ = c₂ → m₁ = m₂ →
      processCandidate fuel₁ o₁ p₁ tr₁ fs₁ n₁ pa₁ c₁ m₁
        = processCandidate fuel₂ o₂ p₂ tr₂ fs₂ n₂ pa₂ c₂ m₂) := by
  constructor
  · intro name₁ parent₁ tpl₁ name₂ parent₂ tpl₂ c₁ m₁ c₂ m₂ k₁ k₂
      h1 h2 h3 h4 h5 h6
    subst h1; subst h2; subst h3; subst h4; subst h5; subst h6; rfl
  · intro fuel₁ fuel₂ o₁ o₂ p₁ p₂ tr₁ tr₂ fs₁ fs₂ n₁ pa₁ n₂ pa₂ c₁ m₁ c₂ m₂
      h1 h2 h3 h4 h5 h6 h7 h8 h9
    subst h1; subst h2; subst h3; subst h4; subst h5; subst h6; subst h7
    subst h8; subst h9; rfl

/-- Witness for C4 at a concrete invocation pair. -/
theorem C4_determinism_witness :
    format_with_dates ("a.txt").data ("d").data defaultTemplate
        ⟨2024, 3, 5, 0, 0, 0⟩ ⟨2024, 3, 5, 0, 0, 0⟩ none
      = format_with_dates ("a.txt").data ("d").data defaultTemplate
          ⟨2024, 3, 5, 0, 0, 0⟩ ⟨2024, 3, 5, 0, 0, 0⟩ none ∧
    processCandidate 3 (mkDefaultOpts defaultTemplate) none none
        [("a.txt").data] ("a.txt").data ("d").data
        ⟨2024, 3, 5, 0, 0, 0⟩ ⟨2024, 3, 5, 0, 0, 0⟩
      = processCandidate 3 (mkDefaultOpts defaultTemplate) none none
          [("a.txt").data] ("a.txt").data ("d").data
          ⟨2024, 3, 5, 0, 0, 0⟩ ⟨2024, 3, 5, 0, 0, 0⟩ :=
  ⟨C4_determinism.1 ("a.txt").data ("d").data defaultTemplate
      ("a.txt").data ("d").data defaultTemplate
      ⟨2024, 3, 5, 0, 0, 0⟩ ⟨2024, 3, 5, 0, 0, 0⟩
      ⟨2024, 3, 5, 0, 0, 0⟩ ⟨2024, 3, 5, 0, 0, 0⟩ none none
      rfl rfl rfl rfl rfl rfl,
   C4_determinism.2 3 3 (mkDefaultOpts defaultTemplate)
      (mkDefaultOpts defaultTemplate) none none none none
      [("a.txt").data] [("a.txt").data] ("a.txt").data ("d").data
      ("a.txt").data ("d").data ⟨2024, 3, 5, 0, 0, 0⟩ ⟨2024, 3, 5, 0, 0, 0⟩
      ⟨2024, 3, 5, 0, 0, 0⟩ ⟨2024, 3, 5, 0, 0, 0⟩
      rfl rfl rfl rfl rfl rfl rfl rfl rfl⟩

/-- C10: in the forward flow, a planned-and-performed rename target is
never the candidate's current name (so no no-op rename is recorded or
executed, for every option set — in particular with `skip_if_already`
disabled); the plan-replay flow suppresses self-renames the same way. -/
theorem C10_no_self_rename :
    ∀ (fuel : Nat) (opts : RenameOpts) (pat : Option (List Char → Bool))
      (tr : Option (List Char → Option (List Char)))
      (fs : List (List Char)) (name parent : List Char)
      (c m : DateTime) (t : List Char),
      (processCandidate fuel opts pat tr fs name parent c m = some t →
        t ≠ name) ∧
      (∀ (pad : Nat) (oldName newName : List Char),
        planReplayEntry fs pad fuel oldName newName = some t → t ≠ oldName) := by
  intro fuel opts pat tr fs name parent c m t
  constructor
  · intro h
    simp only [processCandidate] at h
    split at h
    · exact absurd h (by simp)
    · split at h
      · exact absurd h (by simp)
      · split at h
        · exact absurd h (by simp)
        · split at h
          · exact absurd h (by simp)
          · rename_i hne
            obtain rfl : _ = t := Option.some.inj h
            exact fun hEq => hne hEq.symm
  · intro pad oldName newName h
    simp only [planReplayEntry] at h
    split at h
    · exact absurd h (by simp)
    · split at h
      · exact absurd h (by simp)
      · rename_i hne
        obtain rfl : _ = t := Option.some.inj h
        exact fun hEq => hne hEq.symm

/-- Witness for C10 at a concrete rename and replay. -/
theorem C10_no_self_rename_witness :
    ("Xa.txt").data ≠ ("a.txt").data ∧ ("b.txt").data ≠ ("a.txt").data :=
  ⟨(C10_no_self_rename 3 (mkDefaultOpts ("x\x7bstem\x7d").data) none none
      [("a.txt").data] ("a.txt").data ("d").data
      ⟨2024, 3, 5, 0, 0, 0⟩ ⟨2024, 3, 5, 0, 0, 0⟩ ("Xa.txt").data).1 (by decide),
   (C10_no_self_rename 3 (mkDefaultOpts ("x\x7bstem\x7d").data) none none
      [("a.txt").data] ("a.txt").data ("d").data
      ⟨2024, 3, 5, 0, 0, 0⟩ ⟨2024, 3, 5, 0, 0, 0⟩ ("b.txt").data).2
      2 ("a.txt").data ("b.txt").data (by decide)⟩

/-- C7: the guard's checks run in the fixed order exact-match, explicit
pattern, heuristic, short-circuiting on the first hit; the heuristic
runs only when no compiled pattern exists; a pattern whose compilation
fails (`re.error`) leaves the guard with no pattern — rule 2 is
disabled and rule 3 takes over — instead of aborting; and a disabled
policy compiles nothing. -/
theorem C7_guard_order :
    (∀ (skip : Bool) (pat : Option (List Char → Bool)) (cur new : List Char),
      (idemGuard skip pat cur new = GuardDecision.skipRule1 ↔
        skip = true ∧ cur = new) ∧
      (idemGuard skip pat cur new = GuardDecision.skipRule2 ↔
        skip = true ∧ cur ≠ new ∧ ∃ mf, pat = some mf ∧ mf cur = true) ∧
      (idemGuard skip pat cur new = GuardDecision.skipRule3 ↔
        skip = true ∧ cur ≠ new ∧ pat = none ∧ heuristicSkip cur new = true)) ∧
    (∀ (s : String) (compile : String → Option (List Char → Bool)),
      compile s = none →
      prepareGuardPattern true (IppArg.patStr s) compile = none) ∧
    (∀ (arg : IppArg) (compile : String → Option (List Char → Bool)),
      prepareGuardPattern false arg compile = none) := by
  refine ⟨?_, ?_, ?_⟩
  · intro skip pat cur new
    cases skip with
    | false => refine ⟨?_, ?_, ?_⟩ <;> simp [idemGuard]
    | true =>
      by_cases hcn : cur = new
      · subst hcn
        refine ⟨?_, ?_, ?_⟩ <;> simp [idemGuard]
      · cases pat with
        | none =>
          by_cases hh : heuristicSkip cur new = true
          · refine ⟨?_, ?_, ?_⟩ <;> simp [idemGuard, hcn, hh]
          · refine ⟨?_, ?_, ?_⟩ <;> simp [idemGuard, hcn, hh]
        | some mf =>
          by_cases hm : mf cur = true
          · refine ⟨?_, ?_, ?_⟩ <;> simp [idemGuard, hcn, hm]
          · refine ⟨?_, ?_, ?_⟩ <;> simp [idemGuard, hcn, hm]
  · intro s compile h
    by_cases hs : s = ""
    · simp [prepareGuardPattern, hs]
    · simp [prepareGuardPattern, hs, h]
  · intro arg compile
    simp [prepareGuardPattern]

/-- Witness for C7 at concrete guard inputs. -/
theorem C7_guard_order_witness :
    idemGuard true none ("a.txt").data ("a.txt").data
        = GuardDecision.skipRule1 ∧
    idemGuard true (some (fun _ => true)) ("a.txt").data ("b.txt").data
        = GuardDecision.skipRule2 ∧
    idemGuard true none ("X a.txt").data ("X b.txt").data
        = GuardDecision.skipRule3 ∧
    prepareGuardPattern true (IppArg.patStr "(") (fun _ => none) = none :=
  ⟨((C7_guard_order.1 true none ("a.txt").data ("a.txt").data).1).mpr
      ⟨rfl, rfl⟩,
   ((C7_guard_order.1 true (some (fun _ => true)) ("a.txt").data
      ("b.txt").data).2.1).mpr ⟨rfl, by decide, fun _ => true, rfl, rfl⟩,
   ((C7_guard_order.1 true none ("X a.txt").data ("X b.txt").data).2.2).mpr
      ⟨rfl, by decide, rfl, by decide⟩,
   C7_guard_order.2.1 "(" (fun _ => none) rfl⟩

theorem planReplayAux_not_taken (pad : Nat) (taken : List Char → Bool) :
    ∀ (fuel counter : Nat) (target t : List Char),
      planReplayAux pad taken fuel counter target = some t →
      taken t = false := by
  intro fuel
  induction fuel with
  | zero =>
    intro counter target t h
    rw [planReplayAux] at h
    by_cases ht : taken target = true
    · rw [if_pos ht] at h
      exact absurd h (by simp)
    · rw [if_neg ht] at h
      obtain rfl : target = t := Option.some.inj h
      exact Bool.eq_false_iff.mpr ht
  | succ fuel ih =>
    intro counter target t h
    rw [planReplayAux] at h
    by_cases ht : taken target = true
    · rw [if_pos ht] at h
      exact ih _ _ t h
    · rw [if_neg ht] at h
      obtain rfl : target = t := Option.some.inj h
      exact Bool.eq_false_iff.mpr ht

/-- C8: plan replay applies the persisted `new_name` literally — when
the target name is not taken, the performed rename is exactly
`new_name`, untouched by any template, normalization, translation or
guard (none of which the replay function even consults); when the
target exists as a distinct entry, the stem gains a space and the
zero-padded counter starting at 2, the extension is preserved; a
performed replay target never collides with an existing distinct
entry; and `a.txt -> b.txt` with `b.txt` taken yields `b 02.txt` under
the default pad of 2. -/
theorem C8_plan_replay :
    (∀ (fs : List (List Char)) (pad fuel : Nat) (oldName newName : List Char),
      oldName ∈ fs → newName ∉ fs →
      planReplayEntry fs pad fuel oldName newName = some newName) ∧
    (∀ (fs : List (List Char)) (pad fuel : Nat) (oldName newName : List Char),
      oldName ∈ fs → newName ∈ fs → newName ≠ oldName →
      (pyStem newName ++ ' ' :: zfill pad (natToDigits 2) ++ pySuffix newName) ∉ fs →
      planReplayEntry fs pad (fuel + 1) oldName newName
        = some (pyStem newName ++ ' ' :: zfill pad (natToDigits 2) ++ pySuffix newName)) ∧
    (∀ (fs : List (List Char)) (pad fuel : Nat) (oldName newName t : List Char),
      planReplayEntry fs pad fuel oldName newName = some t → t ∉ fs) ∧
    planReplayEntry [("a.txt").data, ("b.txt").data] 2 3 ("a.txt").data
        ("b.txt").data = some ("b 02.txt").data := by
  refine ⟨?_, ?_, ?_, by decide⟩
  · intro fs pad fuel oldName newName hold hnew
    have hne : oldName ≠ newName := fun h => hnew (h ▸ hold)
    have htk : targetTaken fs oldName newName = false := by
      rw [targetTaken, decide_eq_false_iff_not]
      rintro ⟨hmem, -⟩
      exact hnew hmem
    have hl : planReplayAux pad (targetTaken fs oldName) fuel 2 newName
        = some newName := by
      cases fuel with
      | zero => rw [planReplayAux, if_neg (by rw [htk]; exact Bool.false_ne_true)]
      | succ fuel =>
        rw [planReplayAux, if_neg (by rw [htk]; exact Bool.false_ne_true)]
    simp [planReplayEntry, hl, hne]
  · intro fs pad fuel oldName newName hold hnew hne hfree
    have htk : targetTaken fs oldName newName = true := by
      rw [targetTaken, decide_eq_true_eq]
      exact ⟨hnew, hne⟩
    have hnext : targetTaken fs oldName
        (pyStem newName ++ ' ' :: zfill pad (natToDigits 2) ++ pySuffix newName)
        = false := by
      rw [targetTaken, decide_eq_false_iff_not]
      rintro ⟨hmem, -⟩
      exact hfree hmem
    have hne2 : oldName ≠
        pyStem newName ++ ' ' :: zfill pad (natToDigits 2) ++ pySuffix newName :=
      fun h => hfree (h ▸ hold)
    have h1 : planReplayAux pad (targetTaken fs oldName) (fuel + 1) 2 newName
        = planReplayAux pad (targetTaken fs oldName) fuel 3
            (pyStem newName ++ ' ' :: zfill pad (natToDigits 2)
              ++ pySuffix newName) := by
      rw [planReplayAux, if_pos htk]
    have hc : ¬(targetTaken fs oldName
        (pyStem newName ++ ' ' :: zfill pad (natToDigits 2)
          ++ pySuffix newName) = true) := by
      rw [hnext]
      exact Bool.false_ne_true
    have h2 : planReplayAux pad (targetTaken fs oldName) fuel 3
        (pyStem newName ++ ' ' :: zfill pad (natToDigits 2)
          ++ pySuffix newName)
        = some (pyStem newName ++ ' ' :: zfill pad (natToDigits 2)
            ++ pySuffix newName) := by
      cases fuel with
      | zero => rw [planReplayAux, if_neg hc]
      | succ fuel => rw [planReplayAux, if_neg hc]
    simp only [planReplayEntry, h1, h2]
    rw [if_neg hne2]
  · intro fs pad fuel oldName newName t h
    rcases ha : planReplayAux pad (targetTaken fs oldName) fuel 2 newName with
      _ | u
    · simp [planReplayEntry, ha] at h
    · simp only [planReplayEntry, ha] at h
      have hnt := planReplayAux_not_taken pad (targetTaken fs oldName)
        fuel 2 newName u ha
      by_cases he : oldName = u
      · rw [if_pos he] at h
        exact absurd h (by simp)
      · rw [if_neg he] at h
        obtain rfl : u = t := Option.some.inj h
        intro hmem
        have htk2 : targetTaken fs oldName u = true := by
          rw [targetTaken, decide_eq_true_eq]
          exact ⟨hmem, fun hh => he hh.symm⟩
        rw [htk2] at hnt
        exact absurd hnt (by simp)

/-- Witness for C8 at concrete plan entries. -/
theorem C8_plan_replay_witness :
    planReplayEntry [("a.txt").data] 2 4 ("a.txt").data ("b.txt").data
        = some ("b.txt").data ∧
    planReplayEntry [("a.txt").data, ("b.txt").data] 2 4 ("a.txt").data
        ("b.txt").data
      = some (pyStem ("b.txt").data ++ ' ' :: zfill 2 (natToDigits 2)
          ++ pySuffix ("b.txt").data) ∧
    ("b.txt").data ∉ [("a.txt").data] :=
  ⟨C8_plan_replay.1 [("a.txt").data] 2 4 ("a.txt").data ("b.txt").data
      (by decide) (by decide),
   C8_plan_replay.2.1 [("a.txt").data, ("b.txt").data] 2 3 ("a.txt").data
      ("b.txt").data (by decide) (by decide) (by decide) (by decide),
   C8_plan_replay.2.2.1 [("a.txt").data] 2 4 ("a.txt").data ("b.txt").data
      ("b.txt").data
      (C8_plan_replay.1 [("a.txt").data] 2 4 ("a.txt").data ("b.txt").data
        (by decide) (by decide))⟩

/-! Character-class and fixed-point helper lemmas. -/

theorem isDig_val {c : Char} (h : isDig c = true) :
    48 ≤ c.toNat ∧ c.toNat ≤ 57 := by
  simpa [isDig, Bool.and_eq_true, decide_eq_true_eq] using h

theorem digit_ne {c : Char} (h : isDig c = true) (d : Char)
    (hd : d.toNat < 48 ∨ 57 < d.toNat) : c ≠ d := by
  have h' := isDig_val h
  rintro rfl
  omega

theorem isSpacePy_digit {c : Char} (h : isDig c = true) :
    isSpacePy c = false := by
  have h' := isDig_val h
  simp only [isSpacePy, Bool.or_eq_false_iff, beq_eq_false_iff_ne]
  and_intros <;> omega

theorem isSepChar_digit {c : Char} (h : isDig c = true) :
    isSepChar c = false := by
  have h' := isDig_val h
  simp only [isSepChar, Bool.or_eq_false_iff, beq_eq_false_iff_ne,
    isSpacePy_digit h]
  exact ⟨⟨trivial, digit_ne h _ (by decide)⟩, digit_ne h _ (by decide)⟩

theorem isDropSymbol_digit {c : Char} (h : isDig c = true) :
    isDropSymbol c = false := by
  simp only [isDropSymbol, Bool.or_eq_false_iff, beq_eq_false_iff_ne]
  and_intros <;> exact digit_ne h _ (by decide)

theorem isWordChar_digit {c : Char} (h : isDig c = true) :
    isWordChar c = true := by
  simp [isWordChar, h]

theorem pyLower_digit {c : Char} (h : isDig c = true) : pyLower c = c := by
  have h' := isDig_val h
  rw [pyLower, if_neg (by omega)]

theorem pyUpper_digit {c : Char} (h : isDig c = true) : pyUpper c = c := by
  have h' := isDig_val h
  rw [pyUpper, if_neg (by omega)]

theorem mapFix {f : Char → Char} :
    ∀ {l : List Char}, (∀ ch ∈ l, f ch = ch) → l.map f = l := by
  intro l h
  induction l with
  | nil => rfl
  | cons c r ih =>
    simp only [List.map_cons, h c (List.mem_cons_self c r)]
    rw [ih (fun d hd => h d (List.mem_cons_of_mem c hd))]

theorem filterKeep {p : Char → Bool} :
    ∀ {l : List Char}, (∀ ch ∈ l, p ch = true) → l.filter p = l := by
  intro l h
  induction l with
  | nil => rfl
  | cons c r ih =>
    rw [List.filter_cons, if_pos (h c (List.mem_cons_self c r)),
      ih (fun d hd => h d (List.mem_cons_of_mem c hd))]

theorem filterNone {p : Char → Bool} :
    ∀ {l : List Char}, (∀ ch ∈ l, p ch = false) → l.filter p = [] := by
  intro l h
  induction l with
  | nil => rfl
  | cons c r ih =>
    rw [List.filter_cons, if_neg (by simp [h c (List.mem_cons_self c r)]),
      ih (fun d hd => h d (List.mem_cons_of_mem c hd))]

theorem collapseAux_id {s : List Char}
    (h : ∀ ch ∈ s, isSpacePy ch = false) : ∀ b, collapseAux b s = s := by
  induction s with
  | nil => intro b; rfl
  | cons c r ih =>
    intro b
    rw [collapseAux, if_neg (by simp [h c (List.mem_cons_self c r)])]
    rw [ih (fun d hd => h d (List.mem_cons_of_mem c hd)) false]

theorem dropSpacesL_id {s : List Char}
    (h : ∀ ch ∈ s, isSpacePy ch = false) : dropSpacesL s = s := by
  cases s with
  | nil => rfl
  | cons c r =>
    rw [dropSpacesL, if_neg (by simp [h c (List.mem_cons_self c r)])]

theorem pyStrip_id {s : List Char}
    (h : ∀ ch ∈ s, isSpacePy ch = false) : pyStrip s = s := by
  rw [pyStrip, dropSpacesL_id h,
    dropSpacesL_id (fun d hd => h d (List.mem_reverse.mp hd)),
    List.reverse_reverse]

theorem splitSepsAux_single {s : List Char}
    (h : ∀ ch ∈ s, isSpacePy ch = false ∧ ch ≠ '-') :
    ∀ acc, splitSepsAux false acc s = [acc.reverse ++ s] := by
  induction s with
  | nil => intro acc; simp [splitSepsAux]
  | cons c r ih =>
    intro acc
    have hc := h c (List.mem_cons_self c r)
    rw [splitSepsAux, if_neg hc.2, if_neg (by simp [hc.1])]
    rw [ih (fun d hd => h d (List.mem_cons_of_mem c hd)) (c :: acc)]
    simp

theorem all_isSpacePy_false {c : Char} {r : List Char}
    (hc : isSpacePy c = false) : (c :: r).all isSpacePy = false := by
  simp [List.all_cons, hc]

theorem acronym_heads :
    ACRONYMS.all
      (fun l =>
        match l.head? with
        | some ch => decide (65 ≤ ch.toNat ∧ ch.toNat ≤ 90)
        | none => false) = true := by decide

theorem small_heads :
    SMALL_WORDS.all
      (fun l =>
        match l.head? with
        | some ch => decide (97 ≤ ch.toNat ∧ ch.toNat ≤ 122)
        | none => false) = true := by decide

theorem not_acronym_of_digit_head {c : Char} {r : List Char}
    (hc : isDig c = true) : (c :: r) ∉ ACRONYMS := by
  intro hmem
  have hall := List.all_eq_true.mp acronym_heads _ hmem
  simp only [List.head?_cons, decide_eq_true_eq] at hall
  have h' := isDig_val hc
  omega

theorem not_small_of_digit_head {c : Char} {r : List Char}
    (hc : isDig c = true) : (c :: r) ∉ SMALL_WORDS := by
  intro hmem
  have hall := List.all_eq_true.mp small_heads _ hmem
  simp only [List.head?_cons, decide_eq_true_eq] at hall
  have h' := isDig_val hc
  omega

theorem natToDigitsAux_digits :
    ∀ (fuel n : Nat) (acc : List Char),
      (∀ ch ∈ acc, isDig ch = true) →
      ∀ ch ∈ natToDigitsAux fuel n acc, isDig ch = true := by
  intro fuel
  induction fuel with
  | zero => intro n acc hacc ch hch; exact hacc ch hch
  | succ fuel ih =>
    intro n acc hacc ch hch
    rw [natToDigitsAux] at hch
    by_cases hn : n = 0
    · rw [if_pos hn] at hch; exact hacc ch hch
    · rw [if_neg hn] at hch
      refine ih (n / 10) _ ?_ ch hch
      intro d hd
      rcases List.mem_cons.mp hd with h | h
      · subst h
        have hm : n % 10 < 10 := Nat.mod_lt _ (by omega)
        interval_cases hmod : (n % 10) <;> decide
      · exact hacc d h

theorem natToDigits_digits (n : Nat) :
    ∀ ch ∈ natToDigits n, isDig ch = true := by
  rw [natToDigits]
  by_cases h : n = 0
  · rw [if_pos h]; intro ch hch; simp at hch; subst hch; decide
  · rw [if_neg h]
    exact natToDigitsAux_digits (n + 1) n [] (by intro ch hch; simp at hch)

theorem natToDigitsAux_ne_nil :
    ∀ (fuel n : Nat) (acc : List Char), acc ≠ [] →
      natToDigitsAux fuel n acc ≠ [] := by
  intro fuel
  induction fuel with
  | zero => intro n acc hacc; exact hacc
  | succ fuel ih =>
    intro n acc hacc
    rw [natToDigitsAux]
    by_cases hn : n = 0
    · rw [if_pos hn]; exact hacc
    · rw [if_neg hn]
      exact ih (n / 10) _ (by simp)

theorem natToDigits_ne_nil (n : Nat) : natToDigits n ≠ [] := by
  rw [natToDigits]
  by_cases h : n = 0
  · rw [if_pos h]; simp
  · rw [if_neg h, natToDigitsAux, if_neg h]
    exact natToDigitsAux_ne_nil n (n / 10) _ (by simp)

theorem zfill_digits {w : Nat} {s : List Char}
    (hs : ∀ ch ∈ s, isDig ch = true) :
    ∀ ch ∈ zfill w s, isDig ch = true := by
  rw [zfill]
  by_cases h : w ≤ s.length
  · rw [if_pos h]; exact hs
  · rw [if_neg h]
    intro ch hch
    rcases List.mem_append.mp hch with hm | hm
    · have := List.eq_of_mem_replicate hm
      subst this; decide
    · exact hs ch hm

theorem zfill_ne_nil {w : Nat} {s : List Char} (hs : s ≠ []) :
    zfill w s ≠ [] := by
  rw [zfill]
  by_cases h : w ≤ s.length
  · rw [if_pos h]; exact hs
  · rw [if_neg h]
    simp [hs]

theorem head_data_created :
    ("\x7bcreated").data = '\x7b' :: ("created").data := by decide

theorem head_data_modified :
    ("\x7bmodified").data = '\x7b' :: ("modified").data := by decide

theorem isPre_head_ne {hh : Char} {pt : List Char} {c : Char} {l : List Char}
    (h : c ≠ hh) : isPre (hh :: pt) (c :: l) = false := by
  simp [isPre, beq_eq_false_iff_ne, Ne.symm h]

theorem tryDateTok_none (cr mo : DateTime) {c : Char} {l : List Char}
    (h : c ≠ '\x7b') : tryDateTok cr mo (c :: l) = none := by
  rw [tryDateTok, head_data_created, head_data_modified]
  rw [isPre_head_ne h, isPre_head_ne h]
  simp

theorem subDateAux_id (cr mo : DateTime) :
    ∀ {s : List Char}, (∀ ch ∈ s, ch ≠ '\x7b') →
      ∀ fuel, subDateAux cr mo fuel s = s := by
  intro s
  induction s with
  | nil => intro _ fuel; cases fuel <;> rfl
  | cons c r ih =>
    intro h fuel
    cases fuel with
    | zero => rfl
    | succ fuel =>
      rw [subDateAux, tryDateTok_none cr mo (h c (List.mem_cons_self c r))]
      rw [ih (fun d hd => h d (List.mem_cons_of_mem c hd)) fuel]

theorem replaceAllAux_id {hh : Char} {pt repl : List Char} :
    ∀ {s : List Char}, (∀ ch ∈ s, ch ≠ hh) →
      ∀ fuel, replaceAllAux (hh :: pt) repl fuel s = s := by
  intro s
  induction s with
  | nil => intro _ fuel; cases fuel <;> rfl
  | cons c r ih =>
    intro h fuel
    cases fuel with
    | zero => rfl
    | succ fuel =>
      rw [replaceAllAux,
        if_neg (by simp [isPre_head_ne (h c (List.mem_cons_self c r))])]
      rw [ih (fun d hd => h d (List.mem_cons_of_mem c hd)) fuel]

theorem isSubstring_no_head {hh : Char} {pt : List Char} :
    ∀ {s : List Char}, (∀ ch ∈ s, ch ≠ hh) →
      isSubstring (hh :: pt) s = false := by
  intro s
  induction s with
  | nil => intro _; rfl
  | cons c r ih =>
    intro h
    rw [isSubstring, isPre_head_ne (h c (List.mem_cons_self c r))]
    rw [ih (fun d hd => h d (List.mem_cons_of_mem c hd))]
    rfl

theorem stemTok_cons : stemTok = '\x7b' :: ("stem\x7d").data := by decide

theorem extTok_cons : extTok = '\x7b' :: ("ext\x7d").data := by decide

theorem parentTok_cons : parentTok = '\x7b' :: ("parent\x7d").data := by decide

theorem counterTok_cons : counterTok = '\x7b' :: ("counter\x7d").data := by
  decide

/-- A template without any opening brace renders to itself: the
date-token scan and every literal token replacement leave it
untouched. -/
theorem replaceAll_id {hh : Char} {pt repl : List Char} {s : List Char}
    (h : ∀ ch ∈ s, ch ≠ hh) : replaceAll (hh :: pt) repl s = s := by
  rw [replaceAll, replaceAllAux_id h]

theorem format_id_of_no_brace (name parent : List Char) {s : List Char}
    (h : ∀ ch ∈ s, ch ≠ '\x7b') (cr mo : DateTime) (k : Option Nat) :
    format_with_dates name parent s cr mo k = s := by
  simp only [format_with_dates]
  rw [subDateTokens, subDateAux_id cr mo h]
  rw [stemTok_cons, replaceAll_id h]
  rw [extTok_cons, replaceAll_id h]
  rw [parentTok_cons, replaceAll_id h]
  rw [counterTok_cons, isSubstring_no_head h]
  simp

/-- Fixed point of `normalize_stem` under smart casing: a single
nonempty word with no underscore, no dropped symbol, no whitespace, no
dash, whose bare form is no acronym and whose lower-cased
capitalization is itself, normalizes to itself. -/
theorem normalize_smart_word {s : List Char} (hne : s ≠ [])
    (hu : ∀ ch ∈ s, ch ≠ '_')
    (hsym : ∀ ch ∈ s, isDropSymbol ch = false)
    (hsp : ∀ ch ∈ s, isSpacePy ch = false)
    (hdash : ∀ ch ∈ s, ch ≠ '-')
    (hbare : (s.filter isWordChar).map pyUpper ∉ ACRONYMS)
    (hcap : pyCapitalize (s.map pyLower) = s) :
    normalize_stem s "smart" true true false = s := by
  simp only [normalize_stem, nfkc, collapseSpaces, eq_self_iff_true,
    Bool.false_eq_true, if_true, if_false]
  rw [if_neg (show ("smart" : String) ≠ "keep" by decide)]
  rw [if_neg (show ("smart" : String) ≠ "lower" by decide)]
  rw [if_neg (show ("smart" : String) ≠ "upper" by decide)]
  rw [if_neg (show ("smart" : String) ≠ "title" by decide)]
  rw [mapFix (f := fun c => if c = '_' then ' ' else c)
    (by intro ch hch; simp [hu ch hch])]
  rw [filterKeep (by intro ch hch; simp [hsym ch hch])]
  rw [collapseAux_id hsp false, pyStrip_id hsp]
  rw [smart_title_case, splitSeps,
    splitSepsAux_single (fun d hd => ⟨hsp d hd, hdash d hd⟩) []]
  simp only [withIdx, List.reverse_nil, List.nil_append, concatAll,
    List.map_cons, List.map_nil]
  rcases s with _ | ⟨c, r⟩
  · exact absurd rfl hne
  · rw [normTok,
      if_neg (by
        push_neg
        refine ⟨by simp, ?_, ?_⟩
        · rw [all_isSpacePy_false (hsp c (List.mem_cons_self c r))]
          simp
        · exact fun hcd => absurd (List.cons.inj hcd).1
            (hdash c (List.mem_cons_self c r)))]
    rw [if_neg hbare, if_neg (by rintro ⟨h0, -⟩; omega)]
    rw [hcap]
    simp

theorem counterCollapse_word_facts {z : List Char}
    (hzd : ∀ ch ∈ z, isDig ch = true) (hzne : z ≠ []) :
    normalize_stem (z ++ ['b']) "smart" true true false = z ++ ['b'] := by
  have hmem : ∀ ch ∈ z ++ ['b'], isDig ch = true ∨ ch = 'b' := by
    intro ch hch
    rcases List.mem_append.mp hch with hm | hm
    · exact Or.inl (hzd ch hm)
    · simp at hm; exact Or.inr hm
  refine normalize_smart_word (by simp) ?_ ?_ ?_ ?_ ?_ ?_
  · intro ch hch
    rcases hmem ch hch with h | h
    · exact digit_ne h _ (by decide)
    · subst h; decide
  · intro ch hch
    rcases hmem ch hch with h | h
    · exact isDropSymbol_digit h
    · subst h; decide
  · intro ch hch
    rcases hmem ch hch with h | h
    · exact isSpacePy_digit h
    · subst h; decide
  · intro ch hch
    rcases hmem ch hch with h | h
    · exact digit_ne h _ (by decide)
    · subst h; decide
  · rw [filterKeep
      (by
        intro ch hch
        rcases hmem ch hch with h | h
        · exact isWordChar_digit h
        · subst h; decide)]
    rw [List.map_append, mapFix (fun ch hch => pyUpper_digit (hzd ch hch))]
    rcases z with _ | ⟨c, r⟩
    · exact absurd rfl hzne
    · exact not_acronym_of_digit_head (hzd c (List.mem_cons_self c r))
  · rw [List.map_append, mapFix (fun ch hch => pyLower_digit (hzd ch hch))]
    rcases z with _ | ⟨c, r⟩
    · exact absurd rfl hzne
    · show pyCapitalize (c :: (r ++ List.map pyLower ['b'])) = _
      rw [pyCapitalize, pyUpper_digit (hzd c (List.mem_cons_self c r))]
      rw [List.map_append,
        mapFix (fun ch hch => pyLower_digit (hzd ch (List.mem_cons_of_mem c hch)))]
      rfl

theorem counterCollapse_step (cr mo : DateTime) (k : Nat) :
    collisionStep counterCollapseOpts ("a.txt").data ("d").data cr mo
      ("b.txt").data k = ("b.txt").data := by
  have hzd : ∀ ch ∈ zfill 2 (natToDigits k), isDig ch = true :=
    zfill_digits (natToDigits_digits k)
  have hzne : zfill 2 (natToDigits k) ≠ [] :=
    zfill_ne_nil (natToDigits_ne_nil k)
  have hnb : ∀ ch ∈ zfill 2 (natToDigits k) ++ ['b'], ch ≠ '\x7b' := by
    intro ch hch
    rcases List.mem_append.mp hch with hm | hm
    · exact digit_ne (hzd ch hm) _ (by decide)
    · simp at hm; subst hm; decide
  simp only [collisionStep, counterCollapseOpts]
  rw [if_pos (show isSubstring counterTok (counterTok ++ ['b']) = true
    by decide)]
  have h1 : replaceAll counterTok (zfill 2 (natToDigits k))
      (counterTok ++ ['b']) = zfill 2 (natToDigits k) ++ ['b'] := rfl
  rw [h1, format_id_of_no_brace ("a.txt").data ("d").data hnb cr mo none]
  have hcnd : ¬(false = true) ∧
      isSubstring extTok (counterTok ++ ['b']) = false :=
    ⟨by simp, by decide⟩
  rw [if_pos hcnd]
  have h2 : pySuffix ("a.txt").data = '.' :: ("txt").data := rfl
  rw [h2]
  rw [split_last_dot (zfill 2 (natToDigits k) ++ ['b']) ("txt").data
    (by decide) (by simp)]
  simp only [Bool.not_false]
  rw [counterCollapse_word_facts hzd hzne]
  simp only [apply_substitutions, List.foldl]
  rw [show removeDigits ((zfill 2 (natToDigits k) ++ ['b']) ++ '.' :: ("txt").data)
      = ("b.txt").data by
    rw [removeDigits, List.append_assoc, List.filter_append]
    rw [filterNone (by intro ch hch; rw [hzd ch hch]; rfl)]
    rfl]
  rw [if_pos hcnd.1]
  decide

/-- C3: the collision-resolver loop of `_process_items` has NO counter
ceiling and surfaces no error — with template `{counter}b`, a regex
substitution deleting digits, and `b.txt` taken by a distinct entry,
the pipeline computes `b.txt` for the candidate `a.txt`, the loop
condition holds, and the loop re-renders `b.txt` at EVERY counter, so
it runs forever (in the fuel model: it exhausts every fuel without
terminating or reporting anything). -/
theorem C3_collision_loop_unbounded :
    computeNewName counterCollapseOpts none ("a.txt").data ("d").data
        ⟨2024, 3, 5, 0, 0, 0⟩ ⟨2024, 3, 5, 0, 0, 0⟩ = some ("b.txt").data ∧
    targetTaken [("a.txt").data, ("b.txt").data] ("a.txt").data
        ("b.txt").data = true ∧
    ∀ fuel counter : Nat,
      resolveTargetAux
        (collisionStep counterCollapseOpts ("a.txt").data ("d").data
          ⟨2024, 3, 5, 0, 0, 0⟩ ⟨2024, 3, 5, 0, 0, 0⟩ ("b.txt").data)
        (targetTaken [("a.txt").data, ("b.txt").data] ("a.txt").data)
        fuel counter ("b.txt").data = none := by
  refine ⟨by decide, by decide, ?_⟩
  intro fuel
  induction fuel with
  | zero =>
    intro counter
    rw [resolveTargetAux, if_pos (by decide)]
  | succ fuel ih =>
    intro counter
    rw [resolveTargetAux, if_pos (by decide)]
    rw [counterCollapse_step]
    exact ih (counter + 1)

/-! Leading-segment lemmas used for the idempotence of the default
template. -/

theorem replaceAllAux_append {hh : Char} {pt repl : List Char} :
    ∀ {a : List Char}, (∀ ch ∈ a, ch ≠ hh) →
      ∀ (n : Nat) (b : List Char),
        replaceAllAux (hh :: pt) repl (a.length + n) (a ++ b)
          = a ++ replaceAllAux (hh :: pt) repl n b := by
  intro a
  induction a with
  | nil => intro _ n b; simp
  | cons c a ih =>
    intro h n b
    have hlen : (c :: a).length + n = (a.length + n) + 1 := by
      simp [List.length_cons]; omega
    rw [hlen, List.cons_append, replaceAllAux,
      if_neg (by simp [isPre_head_ne (h c (List.mem_cons_self c a))])]
    rw [ih (fun d hd => h d (List.mem_cons_of_mem c hd)) n b]
    rfl

theorem replaceAll_append {hh : Char} {pt repl : List Char} {a : List Char}
    (h : ∀ ch ∈ a, ch ≠ hh) (b : List Char) :
    replaceAll (hh :: pt) repl (a ++ b) = a ++ replaceAll (hh :: pt) repl b := by
  rw [replaceAll, List.length_append, replaceAllAux_append h b.length b,
    replaceAll]

theorem strftime_ymd (d : DateTime) :
    strftime d defaultDateFmt
      = natToDigits d.year ++ '-' :: (zfill 2 (natToDigits d.month)
          ++ '-' :: zfill 2 (natToDigits d.day)) := by
  have h : strftime d defaultDateFmt
      = natToDigits d.year ++ '-' :: (zfill 2 (natToDigits d.month)
          ++ '-' :: (zfill 2 (natToDigits d.day) ++ [])) := rfl
  rw [h, List.append_nil]

theorem subDate_default (cr mo : DateTime) :
    subDateTokens cr mo defaultTemplate
      = strftime cr defaultDateFmt ++ (" \x7bstem\x7d\x7bext\x7d").data := rfl

theorem date_chars (d : DateTime) :
    ∀ ch ∈ strftime d defaultDateFmt, isDig ch = true ∨ ch = '-' := by
  rw [strftime_ymd]
  intro ch hch
  rcases List.mem_append.mp hch with h | h
  · exact Or.inl (natToDigits_digits _ ch h)
  · rcases List.mem_cons.mp h with h | h
    · exact Or.inr h
    · rcases List.mem_append.mp h with h | h
      · exact Or.inl (zfill_digits (natToDigits_digits _) ch h)
      · rcases List.mem_cons.mp h with h | h
        · exact Or.inr h
        · exact Or.inl (zfill_digits (natToDigits_digits _) ch h)

theorem dateSeg_chars (d : DateTime) :
    ∀ ch ∈ strftime d defaultDateFmt ++ [' '],
      isDig ch = true ∨ ch = '-' ∨ ch = ' ' := by
  intro ch hch
  rcases List.mem_append.mp hch with h | h
  · rcases date_chars d ch h with h' | h'
    · exact Or.inl h'
    · exact Or.inr (Or.inl h')
  · simp at h
    exact Or.inr (Or.inr h)

theorem dateSeg_no_brace (d : DateTime) :
    ∀ ch ∈ strftime d defaultDateFmt ++ [' '], ch ≠ '\x7b' := by
  intro ch hch
  rcases dateSeg_chars d ch hch with h | h | h
  · exact digit_ne h _ (by decide)
  · subst h; decide
  · subst h; decide

theorem dateSeg_no_dot (d : DateTime) :
    '.' ∉ strftime d defaultDateFmt ++ [' '] := by
  intro hmem
  rcases dateSeg_chars d '.' hmem with h | h | h
  · exact absurd rfl (digit_ne h '.' (by decide))
  · exact absurd h (by decide)
  · exact absurd h (by decide)

theorem dateSeg_ne_nil (d : DateTime) :
    strftime d defaultDateFmt ++ [' '] ≠ [] := by simp

theorem format_default (name parent : List Char) (cr mo : DateTime) :
    ∃ rest, format_with_dates name parent defaultTemplate cr mo none
      = (strftime cr defaultDateFmt ++ [' ']) ++ rest := by
  have hnb := dateSeg_no_brace cr
  simp only [format_with_dates]
  rw [subDate_default cr mo]
  have hsp : strftime cr defaultDateFmt ++ (" \x7bstem\x7d\x7bext\x7d").data
      = (strftime cr defaultDateFmt ++ [' ']) ++ ("\x7bstem\x7d\x7bext\x7d").data := by
    rw [List.append_assoc]
    rfl
  rw [hsp]
  rw [stemTok_cons, replaceAll_append hnb]
  have hstem : replaceAll ('\x7b' :: ("stem\x7d").data) (pyStem name)
      ("\x7bstem\x7d\x7bext\x7d").data
      = pyStem name ++ ("\x7bext\x7d").data := rfl
  rw [hstem, extTok_cons, replaceAll_append hnb, parentTok_cons,
    replaceAll_append hnb]
  by_cases hctr :
      isSubstring counterTok
        ((strftime cr defaultDateFmt ++ [' ']) ++
          replaceAll ('\x7b' :: ("parent\x7d").data) parent
            (replaceAll ('\x7b' :: ("ext\x7d").data) (pySuffix name)
              (pyStem name ++ ("\x7bext\x7d").data))) = true
  · rw [if_pos hctr, counterTok_cons, replaceAll_append hnb]
    exact ⟨_, rfl⟩
  · rw [if_neg hctr]
    exact ⟨_, rfl⟩

theorem lastDotIdx_append_none {a : List Char} (ha : '.' ∉ a)
    {b : List Char} (hb : lastDotIdx b = none) :
    lastDotIdx (a ++ b) = none := by
  induction a with
  | nil => simpa using hb
  | cons c a ih =>
    have hc : c ≠ '.' := fun h => ha (h ▸ List.mem_cons_self c a)
    rw [List.cons_append, lastDotIdx,
      ih (fun h => ha (List.mem_cons_of_mem c h))]
    simp [hc]

theorem lastDotIdx_append_some {a : List Char} (ha : '.' ∉ a)
    {b : List Char} {j : Nat} (hb : lastDotIdx b = some j) :
    lastDotIdx (a ++ b) = some (a.length + j) := by
  induction a with
  | nil => simpa using hb
  | cons c a ih =>
    rw [List.cons_append, lastDotIdx,
      ih (fun h => ha (List.mem_cons_of_mem c h))]
    simp only [List.length_cons, Option.some.injEq]
    omega

theorem take_add_append (a : List Char) (j : Nat) (b : List Char) :
    (a ++ b).take (a.length + j) = a ++ b.take j := by
  induction a with
  | nil => simp
  | cons c a ih =>
    simp only [List.cons_append, List.length_cons]
    rw [show a.length + 1 + j = (a.length + j) + 1 by omega]
    rw [List.take_succ_cons, ih]

theorem split_stem_leading {a : List Char} (ha : a ≠ []) (hdot : '.' ∉ a)
    (b : List Char) :
    ∃ w, (split_name_ext (a ++ b)).1 = a ++ w := by
  rw [split_name_ext]
  by_cases h1 : (a ++ b).head? = some '.' ∧ countDot (a ++ b) = 1
  · exfalso
    rcases a with _ | ⟨c, a'⟩
    · exact ha rfl
    · have : c = '.' := by simpa using h1.1
      exact hdot (this ▸ List.mem_cons_self c a')
  · rw [if_neg h1]
    cases hb : lastDotIdx b with
    | none =>
      rw [lastDotIdx_append_none hdot hb]
      exact ⟨b, rfl⟩
    | some j =>
      rw [lastDotIdx_append_some hdot hb]
      have hj : a.length + j ≠ 0 := by
        have : 0 < a.length := List.length_pos.mpr ha
        omega
      show (∃ w, (if a.length + j = 0 then (a ++ b, ([] : List Char))
        else ((a ++ b).take (a.length + j), (a ++ b).drop (a.length + j))).1
          = a ++ w)
      rw [if_neg hj]
      exact ⟨b.take j, by simp [take_add_append]⟩

theorem pyStem_leading {a : List Char} (hdot : '.' ∉ a)
    (b : List Char) :
    ∃ w, pyStem (a ++ b) = a ++ w := by
  rw [pyStem, pySuffixIdx]
  cases hb : lastDotIdx b with
  | none =>
    rw [lastDotIdx_append_none hdot hb]
    exact ⟨b, rfl⟩
  | some j =>
    rw [lastDotIdx_append_some hdot hb]
    show (∃ w, (match
        (if 0 < a.length + j ∧ a.length + j + 1 < (a ++ b).length
          then some (a.length + j) else none) with
      | none => a ++ b
      | some i => (a ++ b).take i) = a ++ w)
    by_cases hc : 0 < a.length + j ∧ a.length + j + 1 < (a ++ b).length
    · rw [if_pos hc]
      exact ⟨b.take j, by simp [take_add_append]⟩
    · rw [if_neg hc]
      exact ⟨b, rfl⟩

theorem collapseAux_append {a : List Char}
    (h : ∀ ch ∈ a, isSpacePy ch = false) (b : List Char) :
    collapseAux false (a ++ b) = a ++ collapseAux false b := by
  induction a with
  | nil => rfl
  | cons c a ih =>
    rw [List.cons_append, collapseAux,
      if_neg (by simp [h c (List.mem_cons_self c a)])]
    rw [ih (fun d hd => h d (List.mem_cons_of_mem c hd))]
    rfl

theorem dropSpacesL_split (b : List Char) :
    ∀ x : List Char, dropSpacesL (x ++ b)
      = if dropSpacesL x = [] then dropSpacesL b else dropSpacesL x ++ b := by
  intro x
  induction x with
  | nil => simp [dropSpacesL]
  | cons c x ih =>
    by_cases hc : isSpacePy c = true
    · rw [List.cons_append, dropSpacesL, if_pos hc, ih, dropSpacesL, if_pos hc]
    · rw [List.cons_append, dropSpacesL, if_neg hc, dropSpacesL, if_neg hc]
      simp

theorem pyStrip_leading {a : List Char} (ha : a ≠ [])
    (h : ∀ ch ∈ a, isSpacePy ch = false) (b : List Char) :
    ∃ w, pyStrip (a ++ b) = a ++ w := by
  rw [pyStrip]
  have hl : dropSpacesL (a ++ b) = a ++ b := by
    rcases a with _ | ⟨c, a'⟩
    · exact absurd rfl ha
    · rw [List.cons_append, dropSpacesL,
        if_neg (by simp [h c (List.mem_cons_self c a')])]
  rw [hl, List.reverse_append, dropSpacesL_split a.reverse b.reverse]
  have hra : dropSpacesL a.reverse = a.reverse := by
    apply dropSpacesL_id
    intro ch hch
    exact h ch (List.mem_reverse.mp hch)
  by_cases hz : dropSpacesL b.reverse = []
  · rw [if_pos hz, hra, List.reverse_reverse]
    exact ⟨[], by simp⟩
  · rw [if_neg hz, List.reverse_append, List.reverse_reverse]
    exact ⟨(dropSpacesL b.reverse).reverse, rfl⟩

theorem splitSepsAux_leading {y : List Char}
    (h : ∀ ch ∈ y, isSpacePy ch = false ∧ ch ≠ '-') :
    ∀ (acc r : List Char),
      splitSepsAux false acc (y ++ '-' :: r)
        = (acc.reverse ++ y) :: ['-'] :: splitSepsAux false [] r := by
  induction y with
  | nil =>
    intro acc r
    rw [List.nil_append, splitSepsAux, if_pos rfl]
    simp
  | cons c y ih =>
    intro acc r
    have hc := h c (List.mem_cons_self c y)
    rw [List.cons_append, splitSepsAux, if_neg hc.2,
      if_neg (by simp [hc.1])]
    rw [ih (fun d hd => h d (List.mem_cons_of_mem c hd)) (c :: acc) r]
    simp

theorem normTok_digit {y : List Char} (hy : y ≠ [])
    (hd : ∀ ch ∈ y, isDig ch = true) (last : Int) (pos : Nat) :
    normTok last y pos = y := by
  rcases y with _ | ⟨c, r⟩
  · exact absurd rfl hy
  · have hcd := hd c (List.mem_cons_self c r)
    rw [normTok,
      if_neg (by
        push_neg
        refine ⟨by simp, ?_, ?_⟩
        · rw [all_isSpacePy_false (isSpacePy_digit hcd)]
          simp
        · exact fun hcd2 => absurd (List.cons.inj hcd2).1
            (digit_ne hcd '-' (by decide)))]
    have hbare : (List.filter isWordChar (c :: r)).map pyUpper = c :: r := by
      rw [filterKeep (fun d hd2 => isWordChar_digit (hd d hd2)),
        mapFix (fun d hd2 => pyUpper_digit (hd d hd2))]
    rw [hbare, if_neg (not_acronym_of_digit_head hcd)]
    have hlow : List.map pyLower (c :: r) = c :: r :=
      mapFix (fun d hd2 => pyLower_digit (hd d hd2))
    rw [hlow,
      if_neg (fun hcond => absurd hcond.2.2 (not_small_of_digit_head hcd))]
    rw [pyCapitalize, pyUpper_digit hcd,
      mapFix (fun d hd2 => pyLower_digit (hd d (List.mem_cons_of_mem c hd2)))]

theorem normTok_dash (last : Int) (pos : Nat) :
    normTok last ['-'] pos = ['-'] := by
  rw [normTok, if_pos (Or.inr (Or.inr rfl))]

theorem smart_leading {y : List Char} (hy : y ≠ [])
    (hd : ∀ ch ∈ y, isDig ch = true) (r : List Char) :
    ∃ v, smart_title_case (y ++ '-' :: r) = y ++ '-' :: v := by
  simp only [smart_title_case, splitSeps]
  rw [splitSepsAux_leading
    (fun d hd2 => ⟨isSpacePy_digit (hd d hd2),
      digit_ne (hd d hd2) '-' (by decide)⟩) [] r]
  simp only [List.reverse_nil, List.nil_append, withIdx, List.map_cons,
    concatAll]
  rw [normTok_digit hy hd, normTok_dash]
  exact ⟨_, rfl⟩

theorem normalize_smart_leading {y : List Char} (hy : y ≠ [])
    (hd : ∀ ch ∈ y, isDig ch = true) (r : List Char) :
    ∃ v, normalize_stem (y ++ '-' :: r) "smart" true true false
      = y ++ '-' :: v := by
  simp only [normalize_stem, nfkc, collapseSpaces, eq_self_iff_true,
    Bool.false_eq_true, if_true, if_false]
  rw [if_neg (show ("smart" : String) ≠ "keep" by decide)]
  rw [if_neg (show ("smart" : String) ≠ "lower" by decide)]
  rw [if_neg (show ("smart" : String) ≠ "upper" by decide)]
  rw [if_neg (show ("smart" : String) ≠ "title" by decide)]
  have hmap : List.map (fun c => if c = '_' then ' ' else c) (y ++ '-' :: r)
      = y ++ '-' :: List.map (fun c => if c = '_' then ' ' else c) r := by
    rw [List.map_append,
      mapFix (fun ch hch => by
        simp [digit_ne (hd ch hch) '_' (by decide)])]
    simp
  rw [hmap]
  have hfil : List.filter (fun c => !isDropSymbol c)
      (y ++ '-' :: List.map (fun c => if c = '_' then ' ' else c) r)
      = y ++ '-' :: List.filter (fun c => !isDropSymbol c)
          (List.map (fun c => if c = '_' then ' ' else c) r) := by
    rw [List.filter_append,
      filterKeep (fun ch hch => by simp [isDropSymbol_digit (hd ch hch)])]
    rw [List.filter_cons, if_pos (by decide)]
  rw [hfil]
  have hyd : ∀ ch ∈ y ++ ['-'], isSpacePy ch = false := by
    intro ch hch
    rcases List.mem_append.mp hch with hm | hm
    · exact isSpacePy_digit (hd ch hm)
    · simp at hm; subst hm; decide
  have hcoll : collapseAux false
      (y ++ '-' :: List.filter (fun c => !isDropSymbol c)
        (List.map (fun c => if c = '_' then ' ' else c) r))
      = (y ++ ['-']) ++ collapseAux false
          (List.filter (fun c => !isDropSymbol c)
            (List.map (fun c => if c = '_' then ' ' else c) r)) := by
    rw [show y ++ '-' :: List.filter (fun c => !isDropSymbol c)
        (List.map (fun c => if c = '_' then ' ' else c) r)
        = (y ++ ['-']) ++ List.filter (fun c => !isDropSymbol c)
            (List.map (fun c => if c = '_' then ' ' else c) r) by simp]
    exact collapseAux_append hyd _
  rw [hcoll]
  obtain ⟨w, hstrip⟩ := pyStrip_leading (by simp) hyd
    (collapseAux false (List.filter (fun c => !isDropSymbol c)
      (List.map (fun c => if c = '_' then ' ' else c) r)))
  rw [hstrip]
  rw [show (y ++ ['-']) ++ w = y ++ '-' :: w by simp]
  exact smart_leading hy hd w

theorem sanitize_leading {y : List Char}
    (hd : ∀ ch ∈ y, isDig ch = true) (r : List Char) :
    ∃ v, sanitize_filename (y ++ '-' :: r) "drop" = y ++ '-' :: v := by
  rw [sanitize_filename]
  rw [if_neg (show ("drop" : String) ≠ "underscore" by decide)]
  have hfil : List.filter sanitizeOk (y ++ '-' :: r)
      = y ++ '-' :: List.filter sanitizeOk r := by
    rw [List.filter_append,
      filterKeep (fun ch hch => by simp [sanitizeOk, isAlnumPy, hd ch hch])]
    rw [List.filter_cons, if_pos (by decide)]
  rw [hfil]
  have hyd : ∀ ch ∈ y ++ ['-'], isSpacePy ch = false := by
    intro ch hch
    rcases List.mem_append.mp hch with hm | hm
    · exact isSpacePy_digit (hd ch hm)
    · simp at hm; subst hm; decide
  rw [collapseSpaces,
    show y ++ '-' :: List.filter sanitizeOk r
      = (y ++ ['-']) ++ List.filter sanitizeOk r by simp,
    collapseAux_append hyd _]
  obtain ⟨w, hstrip⟩ := pyStrip_leading (by simp) hyd
    (collapseAux false (List.filter sanitizeOk r))
  rw [hstrip]
  exact ⟨w, by simp⟩

theorem renderedBase_default (name parent : List Char) (cr mo : DateTime) :
    ∃ rest, renderedBase (mkDefaultOpts defaultTemplate) name parent cr mo
      = (strftime cr defaultDateFmt ++ [' ']) ++ rest := by
  obtain ⟨rest, hfmt⟩ := format_default name parent cr mo
  refine ⟨rest, ?_⟩
  simp only [renderedBase, mkDefaultOpts]
  rw [if_neg (by
    rintro ⟨-, h2⟩
    exact absurd h2 (by decide))]
  exact hfmt

/-- With the default template and options, the computed new name always
starts with the year digits followed by a dash. -/
theorem computeNewName_default_leading (name parent : List Char)
    (cr mo : DateTime) :
    ∃ t, computeNewName (mkDefaultOpts defaultTemplate) none name parent cr mo
      = some (natToDigits cr.year ++ '-' :: t) := by
  obtain ⟨rest, hbase⟩ := renderedBase_default name parent cr mo
  have hyne : natToDigits cr.year ≠ [] := natToDigits_ne_nil cr.year
  have hyd : ∀ ch ∈ natToDigits cr.year, isDig ch = true :=
    natToDigits_digits cr.year
  obtain ⟨w, hsplit⟩ := split_stem_leading (dateSeg_ne_nil cr)
    (dateSeg_no_dot cr) rest
  have hshape : (strftime cr defaultDateFmt ++ [' ']) ++ w
      = natToDigits cr.year
        ++ '-' :: ((zfill 2 (natToDigits cr.month)
          ++ '-' :: zfill 2 (natToDigits cr.day)) ++ ' ' :: w) := by
    rw [strftime_ymd]
    simp
  obtain ⟨v, hnorm⟩ := normalize_smart_leading hyne hyd
    ((zfill 2 (natToDigits cr.month) ++ '-' :: zfill 2 (natToDigits cr.day))
      ++ ' ' :: w)
  have e1 : (mkDefaultOpts defaultTemplate).case_mode = "smart" := rfl
  have e2 : (!(mkDefaultOpts defaultTemplate).keep_symbols) = true := rfl
  have e3 : (!(mkDefaultOpts defaultTemplate).keep_underscores) = true := rfl
  have e4 : (mkDefaultOpts defaultTemplate).convert_dashes = false := rfl
  have e5 : (mkDefaultOpts defaultTemplate).subs = [] := rfl
  have e6 : (mkDefaultOpts defaultTemplate).resubs = [] := rfl
  have e7 : (mkDefaultOpts defaultTemplate).sanitize_mode = "drop" := rfl
  simp only [computeNewName]
  rw [hbase, hsplit, hshape, e1, e2, e3, e4, e5, e6, e7]
  rw [hnorm]
  rw [if_neg (show ¬((split_name_ext
      ((strftime cr defaultDateFmt ++ [' ']) ++ rest)).2 ≠ [] ∧
        (mkDefaultOpts defaultTemplate).ext_case ≠ "keep")
    from fun hc => hc.2 rfl)]
  simp only [apply_substitutions, List.foldl]
  rw [show (natToDigits cr.year ++ '-' :: v)
      ++ (split_name_ext ((strftime cr defaultDateFmt ++ [' ']) ++ rest)).2
      = natToDigits cr.year
        ++ '-' :: (v ++ (split_name_ext
            ((strftime cr defaultDateFmt ++ [' ']) ++ rest)).2) by simp]
  obtain ⟨u, hsan⟩ := sanitize_leading hyd
    (v ++ (split_name_ext ((strftime cr defaultDateFmt ++ [' ']) ++ rest)).2)
  rw [if_pos (show ¬((mkDefaultOpts defaultTemplate).no_sanitize = true)
    by decide)]
  rw [hsan]
  rcases hy : natToDigits cr.year with _ | ⟨c, y2⟩
  · exact absurd hy hyne
  · have hcd : isDig c = true := by
      refine hyd c ?_
      rw [hy]
      exact List.mem_cons_self c y2
    rw [if_neg (by
      push_neg
      refine ⟨by simp, ?_, ?_⟩
      · intro heq
        have := (List.cons.inj heq).1
        exact absurd this (digit_ne hcd '.' (by decide))
      · intro heq
        have := (List.cons.inj heq).1
        exact absurd this (digit_ne hcd '.' (by decide)))]
    exact ⟨_, rfl⟩

theorem resolveTargetAux_cases {step : Nat → List Char}
    {taken : List Char → Bool} :
    ∀ {fuel counter : Nat} {t0 u : List Char},
      resolveTargetAux step taken fuel counter t0 = some u →
      u = t0 ∨ ∃ k, u = step k := by
  intro fuel
  induction fuel with
  | zero =>
    intro counter t0 u h
    rw [resolveTargetAux] at h
    by_cases ht : taken t0 = true
    · rw [if_pos ht] at h
      exact absurd h (by simp)
    · rw [if_neg ht] at h
      exact Or.inl (Option.some.inj h).symm
  | succ fuel ih =>
    intro counter t0 u h
    rw [resolveTargetAux] at h
    by_cases ht : taken t0 = true
    · rw [if_pos ht] at h
      rcases ih h with h' | h'
      · exact Or.inr ⟨counter, h'⟩
      · exact Or.inr h'
    · rw [if_neg ht] at h
      exact Or.inl (Option.some.inj h).symm

theorem leadTok_append {y : List Char}
    (h : ∀ ch ∈ y, isSepChar ch = false) {c : Char}
    (hc : isSepChar c = true) (r : List Char) :
    leadTok (y ++ c :: r) = y := by
  induction y with
  | nil => rw [List.nil_append, leadTok, if_pos hc]
  | cons d y ih =>
    rw [List.cons_append, leadTok,
      if_neg (by simp [h d (List.mem_cons_self d y)])]
    rw [ih (fun e he => h e (List.mem_cons_of_mem d he))]

theorem afterTok_append {y : List Char}
    (h : ∀ ch ∈ y, isSepChar ch = false) {c : Char}
    (hc : isSepChar c = true) (r : List Char) :
    afterTok (y ++ c :: r) = c :: r := by
  induction y with
  | nil => rw [List.nil_append, afterTok, if_pos hc]
  | cons d y ih =>
    rw [List.cons_append, afterTok,
      if_neg (by simp [h d (List.mem_cons_self d y)])]
    exact ih (fun e he => h e (List.mem_cons_of_mem d he))

theorem isPre_self_append : ∀ a r : List Char, isPre a (a ++ r) = true := by
  intro a r
  induction a with
  | nil => rfl
  | cons c a ih => simp [isPre, ih]

/-- The heuristic guard fires whenever the current and the computed
names share a digit-run leading token followed by a dash. -/
theorem heuristicSkip_dash {y w u : List Char} (hy : y ≠ [])
    (hd : ∀ ch ∈ y, isDig ch = true) :
    heuristicSkip (y ++ '-' :: w) (y ++ '-' :: u) = true := by
  have hsep : ∀ ch ∈ y, isSepChar ch = false :=
    fun ch hch => isSepChar_digit (hd ch hch)
  rw [heuristicSkip]
  simp only [leadTok_append (c := '-') hsep (by decide) u,
    afterTok_append (c := '-') hsep (by decide) u]
  rw [if_pos ⟨hy, by simp⟩]
  have hpre : isPre (y ++ ['-']) (y ++ '-' :: w) = true := by
    rw [show y ++ '-' :: w = (y ++ ['-']) ++ w by simp]
    exact isPre_self_append _ _
  simp [hpre]

/-- The first-run output of the default pipeline (after collision
resolution) still starts with the year digits and a dash. -/
theorem resolved_default_leading {fs : List (List Char)}
    {name parent : List Char} {cr mo : DateTime} {fuel : Nat}
    {n1 u : List Char} {t1 : List Char}
    (hn1 : n1 = natToDigits cr.year ++ '-' :: t1)
    (hres : resolveTargetAux
      (collisionStep (mkDefaultOpts defaultTemplate) name parent cr mo n1)
      (targetTaken fs name) fuel 2 n1 = some u) :
    ∃ w, u = natToDigits cr.year ++ '-' :: w := by
  have hyne : natToDigits cr.year ≠ [] := natToDigits_ne_nil cr.year
  have hyd := natToDigits_digits cr.year
  have hnodot : '.' ∉ natToDigits cr.year ++ ['-'] := by
    intro hmem
    rcases List.mem_append.mp hmem with hm | hm
    · exact absurd rfl (digit_ne (hyd '.' hm) '.' (by decide))
    · simp at hm
  rcases resolveTargetAux_cases hres with h | ⟨k, h⟩
  · exact ⟨t1, h.trans hn1⟩
  · rw [collisionStep,
      if_neg (show ¬(isSubstring counterTok
        (mkDefaultOpts defaultTemplate).template = true) by decide)] at h
    obtain ⟨w2, hstem⟩ := pyStem_leading hnodot t1
    rw [hn1, show natToDigits cr.year ++ '-' :: t1
      = (natToDigits cr.year ++ ['-']) ++ t1 by simp, hstem] at h
    exact ⟨w2 ++ ' ' :: zfill (mkDefaultOpts defaultTemplate).pad
      (natToDigits k) ++ pySuffix ((natToDigits cr.year ++ ['-']) ++ t1),
      by rw [h]; simp⟩

/-- C1 counterexample: with the template `x{stem}` (and otherwise
default options, `skip_if_already=true`), the first run renames
`a.txt` to `Xa.txt`, and the second run over the resulting directory
renames that very file again (to `Xxa.txt`) instead of performing zero
renames. -/
theorem C1_idempotence_counterexample :
    processCandidate 5 (mkDefaultOpts ("x\x7bstem\x7d").data) none none
        [("a.txt").data] ("a.txt").data ("d").data
        ⟨2024, 3, 5, 0, 0, 0⟩ ⟨2024, 3, 5, 0, 0, 0⟩
      = some ("Xa.txt").data ∧
    processCandidate 5 (mkDefaultOpts ("x\x7bstem\x7d").data) none none
        [("Xa.txt").data] ("Xa.txt").data ("d").data
        ⟨2024, 3, 5, 0, 0, 0⟩ ⟨2024, 3, 5, 0, 0, 0⟩
      = some ("Xxa.txt").data ∧
    (some ("Xxa.txt").data ≠ (none : Option (List Char))) := by
  refine ⟨by decide, by decide, by simp⟩

/-- C1 amended: with the DEFAULT template `{created:%Y-%m-%d}
{stem}{ext}` and default options (no explicit pattern, smart case,
drop symbols, convert underscores, sanitize drop, no substitutions,
no translation), every file renamed by a first run is skipped by the
idempotency guard on a second run with unchanged timestamps — the
second run plans and performs nothing for it, whatever the directory
contents. -/
theorem C1_default_template_idempotent :
    ∀ (fs₁ fs₂ : List (List Char)) (name parent : List Char)
      (cr mo : DateTime) (fuel₁ fuel₂ : Nat) (t : List Char),
      processCandidate fuel₁ (mkDefaultOpts defaultTemplate) none none fs₁
        name parent cr mo = some t →
      processCandidate fuel₂ (mkDefaultOpts defaultTemplate) none none fs₂
        t parent cr mo = none := by
  intro fs₁ fs₂ name parent cr mo fuel₁ fuel₂ t hrun1
  have hyne : natToDigits cr.year ≠ [] := natToDigits_ne_nil cr.year
  have hyd := natToDigits_digits cr.year
  obtain ⟨t1, h1⟩ := computeNewName_default_leading name parent cr mo
  rw [processCandidate.eq_def, h1] at hrun1
  simp only [] at hrun1
  by_cases hg : idemGuard (mkDefaultOpts defaultTemplate).skip_if_already none
      name (natToDigits cr.year ++ '-' :: t1) ≠ GuardDecision.proceed
  · rw [if_pos hg] at hrun1
    exact absurd hrun1 (by simp)
  · rw [if_neg hg] at hrun1
    rcases hres : resolveTargetAux
        (collisionStep (mkDefaultOpts defaultTemplate) name parent cr mo
          (natToDigits cr.year ++ '-' :: t1))
        (targetTaken fs₁ name) fuel₁ 2
        (natToDigits cr.year ++ '-' :: t1) with _ | u
    · rw [hres] at hrun1
      exact absurd hrun1 (by simp)
    · rw [hres] at hrun1
      simp only [] at hrun1
      by_cases hne : name = u
      · rw [if_pos hne] at hrun1
        exact absurd hrun1 (by simp)
      · rw [if_neg hne] at hrun1
        obtain rfl : u = t := Option.some.inj hrun1
        obtain ⟨w, hw⟩ := resolved_default_leading rfl hres
        obtain ⟨t2, h2⟩ := computeNewName_default_leading u parent cr mo
        have hguard : idemGuard
            (mkDefaultOpts defaultTemplate).skip_if_already none u
            (natToDigits cr.year ++ '-' :: t2) ≠ GuardDecision.proceed := by
          subst hw
          simp only [idemGuard]
          rw [if_neg (by simp [mkDefaultOpts])]
          by_cases heq : natToDigits cr.year ++ '-' :: w
              = natToDigits cr.year ++ '-' :: t2
          · rw [if_pos heq]
            simp
          · rw [if_neg heq, heuristicSkip_dash hyne hyd]
            simp
        rw [processCandidate.eq_def, h2]
        simp only []
        rw [if_pos hguard]

/-- Witness for C1's amended theorem: the default template renames
`foo.txt` to `2024-03-05 Foo.txt` on the first run, and the second run
skips that file. -/
theorem C1_default_template_idempotent_witness :
    processCandidate 5 (mkDefaultOpts defaultTemplate) none none
        [("2024-03-05 Foo.txt").data] ("2024-03-05 Foo.txt").data ("d").data
        ⟨2024, 3, 5, 0, 0, 0⟩ ⟨2024, 3, 5, 0, 0, 0⟩ = none :=
  C1_default_template_idempotent [("foo.txt").data]
    [("2024-03-05 Foo.txt").data] ("foo.txt").data ("d").data
    ⟨2024, 3, 5, 0, 0, 0⟩ ⟨2024, 3, 5, 0, 0, 0⟩ 5 5
    ("2024-03-05 Foo.txt").data (by decide)

end SyncStage
